import Mathlib

/-!
Verification of the sentiment aggregation and trend pipeline of the
Sentiment-Analysis-to-smart-choice repository.

The embedding below translates the core functions of
src/src/sentiment_analyzer.py, src/src/sentiment_analyzer_full.py,
src/src/utils.py and src/src/utils_fixed.py into Lean.  Texts are lists of
characters, floats are modelled as rationals, sentiment labels are the
Python strings, and the external scoring libraries (TextBlob, VADER) are
oracles passed as parameters: a scorer call either returns the library's
numbers or raises, which we model with Except.  Pandas DataFrames are
lists of records; pandas and numpy calls (value_counts, sort_values,
polyfit) are modelled by the computation they document, as noted at each
definition.
-/

/-! ### Character classes (models of the Python regex classes over ASCII) -/

/-- Model of the Python regex class backslash-s (whitespace). -/
def isPySpace (c : Char) : Bool :=
  c == ' ' || c == '\t' || c == '\n' || c == '\r' || c == '\x0b' || c == '\x0c'

/-- Model of the Python regex class backslash-w (word characters), ASCII. -/
def isWordChar (c : Char) : Bool :=
  c.isAlphanum || c == '_'

/-- True when the list starts with a non-whitespace character. -/
def nonSpaceHead : List Char → Bool
  | [] => false
  | c :: _ => !isPySpace c

/-- Position matched by the URL regex of clean_text
(pattern http backslash-S+, www backslash-S+ or https backslash-S+;
the https alternative is subsumed by the http one): the list must begin
with the literal and carry at least one further non-space character. -/
def urlStart (l : List Char) : Bool :=
  (decide (l.take 4 = ['h', 't', 't', 'p']) && nonSpaceHead (l.drop 4))
    || (decide (l.take 3 = ['w', 'w', 'w']) && nonSpaceHead (l.drop 3))

/-- Position matched by the mention/hashtag regex of clean_text
(pattern at-sign backslash-w+ or hash backslash-w+). -/
def tagStart : List Char → Bool
  | c :: d :: _ => (c == '@' || c == '#') && isWordChar d
  | _ => false

/-! ### clean_text (SentimentAnalyzer.clean_text, identical in both analyzer files)

Each re.sub pass is a left-to-right scan removing non-overlapping matches.
A URL match always extends to the end of the current non-space run (the
greedy backslash-S+), so the scan is a flag automaton: once a match fires
the whole remaining run is skipped.  Likewise a tag match consumes the
marker plus the following word-character run. -/

/-- Scan of re.sub removing URL matches.  The flag records that the scan is
inside a removed non-space run; a whitespace character can never start a
URL match, hence the true branch re-emits it and leaves the run. -/
def removeUrlsAux : Bool → List Char → List Char
  | _, [] => []
  | true, c :: cs =>
      if isPySpace c then c :: removeUrlsAux false cs
      else removeUrlsAux true cs
  | false, c :: cs =>
      if urlStart (c :: cs) then removeUrlsAux true cs
      else c :: removeUrlsAux false cs

/-- First pass of clean_text: remove URL-shaped substrings. -/
def removeUrls (l : List Char) : List Char := removeUrlsAux false l

/-- Scan of re.sub removing mention/hashtag matches.  The flag records that
the scan is inside a removed word-character run; the first non-word
character ends the match and is processed again in match-seeking mode. -/
def removeTagsAux : Bool → List Char → List Char
  | _, [] => []
  | true, c :: cs =>
      if isWordChar c then removeTagsAux true cs
      else if tagStart (c :: cs) then removeTagsAux true cs
      else c :: removeTagsAux false cs
  | false, c :: cs =>
      if tagStart (c :: cs) then removeTagsAux true cs
      else c :: removeTagsAux false cs

/-- Second pass of clean_text: remove mention and hashtag tokens. -/
def removeTags (l : List Char) : List Char := removeTagsAux false l

/-- Scan of re.sub replacing every whitespace run by one space.  The flag
records that the current whitespace run has already emitted its space. -/
def collapseAux : Bool → List Char → List Char
  | _, [] => []
  | true, c :: cs =>
      if isPySpace c then collapseAux true cs
      else c :: collapseAux false cs
  | false, c :: cs =>
      if isPySpace c then ' ' :: collapseAux true cs
      else c :: collapseAux false cs

/-- Third pass of clean_text: collapse whitespace runs to single spaces. -/
def collapseWs (l : List Char) : List Char := collapseAux false l

/-- Removal of trailing whitespace, via the reversed list. -/
def stripEnd (l : List Char) : List Char :=
  (l.reverse.dropWhile isPySpace).reverse

/-- Model of str.strip: drop leading and trailing whitespace. -/
def stripBoth (l : List Char) : List Char :=
  stripEnd (l.dropWhile isPySpace)

/-- SentimentAnalyzer.clean_text: empty/NA input returns the empty string,
otherwise remove URLs, remove mentions/hashtags, collapse whitespace and
strip.  The pd.isna branch only concerns the NaN input, outside the
string-valued domain modelled here. -/
def clean_text (text : List Char) : List Char :=
  if text = [] then []
  else stripBoth (collapseWs (removeTags (removeUrls text)))

/-! ### Polarity scorers (textblob_sentiment / vader_sentiment)

The TextBlob library call is an oracle producing (polarity, subjectivity)
or raising; the VADER call produces the four polarity_scores or raises. -/

/-- Result dictionary of textblob_sentiment. -/
structure TBResult where
  sentiment : String
  polarity : ℚ
  subjectivity : ℚ
  confidence : ℚ
deriving DecidableEq, Repr

/-- Scores dictionary returned by SentimentIntensityAnalyzer.polarity_scores. -/
structure VaderScores where
  compound : ℚ
  pos : ℚ
  neg : ℚ
  neu : ℚ
deriving DecidableEq, Repr

/-- Result dictionary of vader_sentiment. -/
structure VDResult where
  sentiment : String
  compound : ℚ
  positive : ℚ
  negative : ℚ
  neutral : ℚ
  confidence : ℚ
deriving DecidableEq, Repr

/-- SentimentAnalyzer.textblob_sentiment: thresholds polarity at 0.1
strictly, confidence is the absolute polarity, and any library failure
yields the neutral zero fallback. -/
def textblob_sentiment (blob : List Char → Except String (ℚ × ℚ))
    (text : List Char) : TBResult :=
  match blob text with
  | .ok (polarity, subjectivity) =>
      let sentiment :=
        if polarity > 1/10 then "positive"
        else if polarity < -(1/10) then "negative"
        else "neutral"
      ⟨sentiment, polarity, subjectivity, |polarity|⟩
  | .error _ => ⟨"neutral", 0, 0, 0⟩

/-- SentimentAnalyzer.vader_sentiment (full analyzer): thresholds the
compound score at 0.05 inclusively, confidence is the absolute compound,
and any library failure yields the neutral fallback with neu = 1. -/
def vader_sentiment (vader : List Char → Except String VaderScores)
    (text : List Char) : VDResult :=
  match vader text with
  | .ok s =>
      let sentiment :=
        if s.compound ≥ 1/20 then "positive"
        else if s.compound ≤ -(1/20) then "negative"
        else "neutral"
      ⟨sentiment, s.compound, s.pos, s.neg, s.neu, |s.compound|⟩
  | .error _ => ⟨"neutral", 0, 0, 0, 1, 0⟩

/-- SentimentAnalyzer.ensemble_sentiment (full analyzer): the strictly more
confident scorer wins with the averaged confidence; at equal confidence an
agreed label keeps the averaged confidence, otherwise neutral with 0.5. -/
def ensemble_sentiment (textblob_sent vader_sent : String)
    (textblob_conf vader_conf : ℚ) : String × ℚ :=
  if textblob_conf > vader_conf then
    (textblob_sent, (textblob_conf + vader_conf) / 2)
  else if vader_conf > textblob_conf then
    (vader_sent, (textblob_conf + vader_conf) / 2)
  else if textblob_sent == vader_sent then
    (textblob_sent, (textblob_conf + vader_conf) / 2)
  else
    ("neutral", 1/2)

/-! ### Batch analysis (analyze_batch in both analyzer files) -/

/-- Configuration surface consumed by the core (config.py). -/
structure Config where
  MIN_TEXT_LENGTH : ℕ
deriving DecidableEq, Repr

/-- Raw input item handed to analyze_batch.  The .get defaults of the
Python code are the values of the absent-key case and are part of the
collector contract, so fields are total here. -/
structure RawItem where
  id : String
  title : List Char
  text : List Char
  source : String
  keyword : String
  created_utc : Int
  score : Int
  num_comments : Int
  url : String
  subreddit : String
deriving DecidableEq, Repr

/-- Output row of the full analyzer's analyze_batch. -/
structure Record where
  id : String
  original_text : List Char
  cleaned_text : List Char
  source : String
  keyword : String
  created_utc : Int
  textblob_label : String
  textblob_polarity : ℚ
  textblob_subjectivity : ℚ
  vader_label : String
  vader_compound : ℚ
  vader_positive : ℚ
  vader_negative : ℚ
  vader_neutral : ℚ
  final_sentiment : String
  final_confidence : ℚ
  score : Int
  num_comments : Int
  url : String
  subreddit : String
deriving DecidableEq, Repr

/-- Output row of the simple analyzer's analyze_batch
(sentiment_analyzer.py): TextBlob only, final results copy TextBlob. -/
structure SimpleRecord where
  id : String
  original_text : List Char
  cleaned_text : List Char
  source : String
  keyword : String
  created_utc : Int
  textblob_label : String
  textblob_polarity : ℚ
  textblob_subjectivity : ℚ
  final_sentiment : String
  final_confidence : ℚ
  score : Int
  num_comments : Int
  url : String
  subreddit : String
deriving DecidableEq, Repr

/-- Title and text combined by the f-string of analyze_batch. -/
def combined_text (item : RawItem) : List Char :=
  item.title ++ ' ' :: item.text

/-- Row built by the loop body of the full analyze_batch for a surviving item. -/
def mkFullRecord (blob : List Char → Except String (ℚ × ℚ))
    (vader : List Char → Except String VaderScores) (item : RawItem) : Record :=
  let combined := combined_text item
  let cleaned := clean_text combined
  let tb := textblob_sentiment blob cleaned
  let vd := vader_sentiment vader cleaned
  let ens := ensemble_sentiment tb.sentiment vd.sentiment tb.confidence vd.confidence
  { id := item.id
    original_text := combined
    cleaned_text := cleaned
    source := item.source
    keyword := item.keyword
    created_utc := item.created_utc
    textblob_label := tb.sentiment
    textblob_polarity := tb.polarity
    textblob_subjectivity := tb.subjectivity
    vader_label := vd.sentiment
    vader_compound := vd.compound
    vader_positive := vd.positive
    vader_negative := vd.negative
    vader_neutral := vd.neutral
    final_sentiment := ens.1
    final_confidence := ens.2
    score := item.score
    num_comments := item.num_comments
    url := item.url
    subreddit := item.subreddit }

/-- SentimentAnalyzer.analyze_batch (sentiment_analyzer_full.py): clean the
combined text, silently skip items below config.MIN_TEXT_LENGTH, otherwise
score with both scorers and resolve with the ensemble. -/
def analyze_batch_full (cfg : Config) (blob : List Char → Except String (ℚ × ℚ))
    (vader : List Char → Except String VaderScores) : List RawItem → List Record
  | [] => []
  | item :: rest =>
      if (clean_text (combined_text item)).length < cfg.MIN_TEXT_LENGTH then
        analyze_batch_full cfg blob vader rest
      else
        mkFullRecord blob vader item :: analyze_batch_full cfg blob vader rest

/-- Row built by the loop body of the simple analyze_batch. -/
def mkSimpleRecord (blob : List Char → Except String (ℚ × ℚ))
    (item : RawItem) : SimpleRecord :=
  let combined := combined_text item
  let cleaned := clean_text combined
  let tb := textblob_sentiment blob cleaned
  { id := item.id
    original_text := combined
    cleaned_text := cleaned
    source := item.source
    keyword := item.keyword
    created_utc := item.created_utc
    textblob_label := tb.sentiment
    textblob_polarity := tb.polarity
    textblob_subjectivity := tb.subjectivity
    final_sentiment := tb.sentiment
    final_confidence := tb.confidence
    score := item.score
    num_comments := item.num_comments
    url := item.url
    subreddit := item.subreddit }

/-- SentimentAnalyzer.analyze_batch (sentiment_analyzer.py): same filter
with the literal 10 (the MIN_TEXT_LENGTH comment in the source), TextBlob
results copied into the final columns. -/
def analyze_batch (blob : List Char → Except String (ℚ × ℚ)) :
    List RawItem → List SimpleRecord
  | [] => []
  | item :: rest =>
      if (clean_text (combined_text item)).length < 10 then
        analyze_batch blob rest
      else
        mkSimpleRecord blob item :: analyze_batch blob rest

/-! ### Summary statistics (get_summary_stats, identical in both analyzer files) -/

/-- Model of Python round(x, k): scale, round half to even ties aside
(Mathlib round is half-up; no claim depends on tie direction), unscale. -/
def roundTo (k : ℕ) (q : ℚ) : ℚ :=
  ((round (q * 10 ^ k) : ℤ) : ℚ) / 10 ^ k

/-- Minimum of a list of integers, 0 for the empty list (only used on
nonempty lists, mirroring Series.min on a nonempty column). -/
def minList : List Int → Int
  | [] => 0
  | x :: xs => xs.foldl min x

/-- Maximum of a list of integers, 0 for the empty list. -/
def maxList : List Int → Int
  | [] => 0
  | x :: xs => xs.foldl max x

/-- Distinct values of a list in order of first appearance, the grouping
order of the pandas hash table underlying value_counts. -/
def firstSeenAux (seen : List String) : List String → List String
  | [] => []
  | x :: xs =>
      if seen.contains x then firstSeenAux seen xs
      else x :: firstSeenAux (x :: seen) xs

/-- Distinct values in first-seen order. -/
def firstSeen (l : List String) : List String := firstSeenAux [] l

/-- Occurrence counts per distinct value, in first-seen order. -/
def sourceCounts (l : List String) : List (String × ℕ) :=
  (firstSeen l).map fun s => (s, l.count s)

/-- Stable insertion into a count-descending list: the inserted element
goes before the first entry whose count is not larger, so earlier-seen
entries stay ahead of equal counts. -/
def insertByCount (x : String × ℕ) : List (String × ℕ) → List (String × ℕ)
  | [] => [x]
  | y :: l => if x.2 < y.2 then y :: insertByCount x l else x :: y :: l

/-- Stable sort by descending count. -/
def sortByCountDesc : List (String × ℕ) → List (String × ℕ)
  | [] => []
  | x :: xs => insertByCount x (sortByCountDesc xs)

/-- Model of Series.value_counts: counts grouped in first-seen order, then
sorted by descending count (the sort leaves equal counts in group order). -/
def value_counts (l : List String) : List (String × ℕ) :=
  sortByCountDesc (sourceCounts l)

/-- Summary dictionary built by get_summary_stats on a nonempty frame. -/
structure Summary where
  total_posts : ℕ
  dist_positive : ℕ
  dist_negative : ℕ
  dist_neutral : ℕ
  pct_positive : ℚ
  pct_negative : ℚ
  pct_neutral : ℚ
  average_confidence : ℚ
  top_sources : List (String × ℕ)
  date_start : Int
  date_end : Int
deriving DecidableEq, Repr

/-- Body of get_summary_stats after the df.empty early return. -/
def buildSummary (records : List Record) : Summary :=
  let total := records.length
  let pos := records.countP fun r => r.final_sentiment == "positive"
  let neg := records.countP fun r => r.final_sentiment == "negative"
  let neu := records.countP fun r => r.final_sentiment == "neutral"
  { total_posts := total
    dist_positive := pos
    dist_negative := neg
    dist_neutral := neu
    pct_positive := roundTo 2 ((pos : ℚ) / (total : ℚ) * 100)
    pct_negative := roundTo 2 ((neg : ℚ) / (total : ℚ) * 100)
    pct_neutral := roundTo 2 ((neu : ℚ) / (total : ℚ) * 100)
    average_confidence := roundTo 3 ((records.map Record.final_confidence).sum / (total : ℚ))
    top_sources := (value_counts (records.map Record.source)).take 5
    date_start := minList (records.map Record.created_utc)
    date_end := maxList (records.map Record.created_utc) }

/-- SentimentAnalyzer.get_summary_stats: the empty frame returns the empty
dictionary (modelled none), otherwise the populated summary. -/
def get_summary_stats (records : List Record) : Option Summary :=
  if records.isEmpty then none else some (buildSummary records)

/-! ### Trend classification (calculate_sentiment_trend of utils_fixed.py
and of utils.py) -/

/-- Record fields touched by the trend functions: a row of the DataFrame
they receive, including the sentiment_numeric column that utils.py
assigns (absent, i.e. none, until then). -/
structure URec where
  final_sentiment : String
  created_utc : Int
  sentiment_numeric : Option ℚ
deriving DecidableEq, Repr

/-- Date order used by df.sort_values on the created_utc column. -/
def dateLe (a b : URec) : Prop := a.created_utc ≤ b.created_utc

instance : DecidableRel dateLe := fun a b => Int.decLe _ _

instance : IsTotal URec dateLe := ⟨fun a b => Int.le_total _ _⟩

instance : IsTrans URec dateLe := ⟨fun _ _ _ => Int.le_trans⟩

/-- Ascending sort by created_utc, modelling df.sort_values. -/
def sortByDate (df : List URec) : List URec := List.insertionSort dateLe df

/-- Numeric sentiment mapping of both trend functions: Series.map with the
dict sends the three labels to 1, 0, -1 and any other value to NaN
(modelled none). -/
def sentimentNumeric (s : String) : Option ℚ :=
  if s = "positive" then some 1
  else if s = "neutral" then some 0
  else if s = "negative" then some (-1)
  else none

/-- Slope of the degree-one least-squares fit computed by np.polyfit on
point lists xs, ys: the closed normal-equation form
(n * sum xy - sum x * sum y) / (n * sum x^2 - (sum x)^2). -/
def polyfitSlope (xs ys : List ℚ) : ℚ :=
  let n : ℚ := xs.length
  let sx := xs.sum
  let sy := ys.sum
  let sxy := (List.zipWith (fun a b => a * b) xs ys).sum
  let sxx := (xs.map fun a => a * a).sum
  (n * sxy - sx * sy) / (n * sxx - sx * sx)

/-- Index abscissas 0, 1, ..., n-1 used for the fit (np.arange / range). -/
def idxList (n : ℕ) : List ℚ := (List.range n).map Nat.cast

/-- Slope of the least-squares line of ys against indices 0, 1, 2, .... -/
def olsSlope (ys : List ℚ) : ℚ := polyfitSlope (idxList ys.length) ys

/-- calculate_sentiment_trend of utils_fixed.py: fewer than 2 rows give
insufficient_data; otherwise sort by date, map sentiments to numbers and
threshold the polyfit slope at 0.01.  A NaN in the mapped series makes the
slope NaN, whose comparisons are false, hence the stable fallback. -/
def calculate_sentiment_trend (df : List URec) : String :=
  if df.length < 2 then "insufficient_data"
  else
    let scores := (sortByDate df).map fun r => sentimentNumeric r.final_sentiment
    if scores.all Option.isSome then
      let ys := scores.map fun o => o.getD 0
      let slope := olsSlope ys
      if slope > 1/100 then "improving"
      else if slope < -(1/100) then "declining"
      else "stable"
    else "stable"

/-- Column assignment performed by utils.py:
df[sentiment_numeric] = df[final_sentiment].map(sentiment_map). -/
def addSentimentNumeric (r : URec) : URec :=
  { r with sentiment_numeric := sentimentNumeric r.final_sentiment }

/-- calculate_sentiment_trend of utils.py: fewer than 5 rows return stable
untouched; otherwise the sentiment_numeric column is assigned in place on
the caller's frame (second component), rows are sorted by date, NaN scores
are masked out keeping their original abscissas, fewer than 3 survivors
return stable, and the polyfit slope is thresholded at 0.05. -/
def calculate_sentiment_trend_utils (df : List URec) : String × List URec :=
  if df.length < 5 then ("stable", df)
  else
    let df2 := df.map addSentimentNumeric
    let ys := (sortByDate df2).map fun r => r.sentiment_numeric
    let kept := ((List.range ys.length).zip ys).filter fun p => p.2.isSome
    if kept.length < 3 then ("stable", df2)
    else
      let xc := kept.map fun p => ((p.1 : ℚ))
      let yc := kept.map fun p => p.2.getD 0
      let slope := polyfitSlope xc yc
      (if slope > 1/20 then "improving"
       else if slope < -(1/20) then "declining"
       else "stable", df2)

/-! ### Demonstration values used by concrete witnesses -/

/-- Concrete five-row frame for the trend claims. -/
def demoTrendDf : List URec :=
  [⟨"neutral", 1, none⟩, ⟨"neutral", 2, none⟩, ⟨"neutral", 3, none⟩,
   ⟨"neutral", 4, none⟩, ⟨"neutral", 5, none⟩]

/-- TextBlob oracle for witnesses: polarity 1/2, subjectivity 0. -/
def demoBlob : List Char → Except String (ℚ × ℚ) := fun _ => .ok (1/2, 0)

/-- VADER oracle for witnesses: the library always raises. -/
def demoVader : List Char → Except String VaderScores := fun _ => .error "offline"

/-- Concrete raw item for witnesses; its cleaned text is long enough. -/
def demoItem : RawItem :=
  { id := "a1"
    title := "hello world today".data
    text := "great product experience".data
    source := "news"
    keyword := "brand"
    created_utc := 100
    score := 1
    num_comments := 0
    url := "u"
    subreddit := "s" }

/-- Index of the first occurrence of a source in the input sequence
(length of the list when absent). -/
def firstIdx (s : String) (l : List String) : ℕ := l.findIdx fun t => t == s

/-- Concrete record builder for witnesses. -/
def demoRecord (src sent : String) (conf : ℚ) (t : Int) : Record :=
  { id := "r"
    original_text := []
    cleaned_text := "0123456789".data
    source := src
    keyword := "brand"
    created_utc := t
    textblob_label := sent
    textblob_polarity := 0
    textblob_subjectivity := 0
    vader_label := sent
    vader_compound := 0
    vader_positive := 0
    vader_negative := 0
    vader_neutral := 1
    final_sentiment := sent
    final_confidence := conf
    score := 0
    num_comments := 0
    url := ""
    subreddit := "" }

/-- Concrete record collection with a source-count tie for witnesses. -/
def demoRecords : List Record :=
  [demoRecord "news" "positive" (1/2) 1, demoRecord "blog" "negative" (1/4) 2,
   demoRecord "blog" "neutral" 0 3, demoRecord "news" "positive" 1 4,
   demoRecord "wiki" "positive" (3/4) 5]

/-- Sum of squared errors of the affine model m * x + b over the indexed
series ys: the objective that a degree-one least-squares fit (np.polyfit)
minimises. -/
def sse (m b : ℚ) (ys : List ℚ) : ℚ :=
  ∑ i in Finset.range ys.length, (ys.getD i 0 - (m * (i : ℚ) + b)) ^ 2

/-- Intercept of the least-squares line of ys against indices. -/
def olsIntercept (ys : List ℚ) : ℚ :=
  (ys.sum - olsSlope ys * (idxList ys.length).sum) / (ys.length : ℚ)

/-- Numeric series fitted by the fixed trend classifier: sentiments of the
date-sorted records mapped to 1, 0, -1. -/
def trendScores (df : List URec) : List ℚ :=
  (sortByDate df).map fun r => (sentimentNumeric r.final_sentiment).getD 0

/-- Concrete improving five-record collection for the trend witness. -/
def demoTrendRecs : List URec :=
  [⟨"negative", 1, none⟩, ⟨"negative", 2, none⟩, ⟨"neutral", 3, none⟩,
   ⟨"positive", 4, none⟩, ⟨"positive", 5, none⟩]

/-- Absence of a URL-regex match at every position of the string. -/
def NoUrl (l : List Char) : Prop := ∀ t : List Char, t <:+ l → urlStart t = false

/-- Absence of a mention/hashtag-regex match at every position. -/
def NoTag (l : List Char) : Prop := ∀ t : List Char, t <:+ l → tagStart t = false

/-- Whitespace already collapsed: every whitespace character is a plain
space and no two whitespace characters are adjacent. -/
def Collapsed (l : List Char) : Prop :=
  (∀ c ∈ l, isPySpace c = true → c = ' ')
  ∧ List.Chain' (fun a b => ¬(isPySpace a = true ∧ isPySpace b = true)) l

/-! ### Helper lemmas for the batch analyzers -/

/-- Loop of the full analyze_batch as a filter followed by the row builder. -/
lemma analyze_batch_full_eq (cfg : Config) (blob : List Char → Except String (ℚ × ℚ))
    (vader : List Char → Except String VaderScores) (data : List RawItem) :
    analyze_batch_full cfg blob vader data
      = (data.filter fun it =>
          decide (cfg.MIN_TEXT_LENGTH ≤ (clean_text (combined_text it)).length)).map
            (mkFullRecord blob vader) := by
  induction data with
  | nil => rfl
  | cons item rest ih =>
      by_cases h : (clean_text (combined_text item)).length < cfg.MIN_TEXT_LENGTH
      · simp [analyze_batch_full, List.filter_cons, h, Nat.not_le.mpr h, ih]
      · simp [analyze_batch_full, List.filter_cons, h, Nat.not_lt.mp h, ih]

/-- Loop of the simple analyze_batch as a filter followed by the row builder. -/
lemma analyze_batch_eq (blob : List Char → Except String (ℚ × ℚ)) (data : List RawItem) :
    analyze_batch blob data
      = (data.filter fun it =>
          decide (10 ≤ (clean_text (combined_text it)).length)).map (mkSimpleRecord blob) := by
  induction data with
  | nil => rfl
  | cons item rest ih =>
      by_cases h : (clean_text (combined_text item)).length < 10
      · simp [analyze_batch, List.filter_cons, h, Nat.not_le.mpr h, ih]
      · simp [analyze_batch, List.filter_cons, h, Nat.not_lt.mp h, ih]

/-! ### Claims C1, C2, C3, C6, C4, C10 -/

/-- Claim C1 (counterexample): on the empty collection get_summary_stats
does not return a populated zeroed summary; it returns the empty
dictionary, modelled as none. -/
theorem C1_empty_summary_counterexample :
    ¬ ∃ s : Summary, get_summary_stats [] = some s ∧ s.total_posts = 0
      ∧ s.dist_positive = 0 ∧ s.dist_negative = 0 ∧ s.dist_neutral = 0 := by
  rintro ⟨s, hs, -⟩
  simp [get_summary_stats] at hs

/-- Claim C1 (amended): for the empty record collection get_summary_stats
returns the empty dictionary (none), not a zeroed SummaryStats, and being
a total function it never raises. -/
theorem C1_empty_summary : get_summary_stats [] = none := rfl

/-- Claim C2: with two scorer results the strictly more confident one wins
with confidence the average of the two inputs; at equal confidences an
agreed label keeps the averaged confidence and disagreement yields neutral
with exactly 0.5. -/
theorem C2_ensemble_policy (l1 l2 : String) (c1 c2 : ℚ) :
    (c2 < c1 → ensemble_sentiment l1 l2 c1 c2 = (l1, (c1 + c2) / 2))
    ∧ (c1 < c2 → ensemble_sentiment l1 l2 c1 c2 = (l2, (c1 + c2) / 2))
    ∧ (c1 = c2 → l1 = l2 → ensemble_sentiment l1 l2 c1 c2 = (l1, (c1 + c2) / 2))
    ∧ (c1 = c2 → l1 ≠ l2 → ensemble_sentiment l1 l2 c1 c2 = ("neutral", 1/2)) := by
  refine ⟨?_, ?_, ?_, ?_⟩
  · intro h
    simp [ensemble_sentiment, h]
  · intro h
    have h' : ¬ c2 < c1 := not_lt.mpr (le_of_lt h)
    simp [ensemble_sentiment, h, h']
  · intro h hl
    subst h; subst hl
    simp [ensemble_sentiment]
  · intro h hl
    subst h
    simp [ensemble_sentiment, hl]

/-- Claim C2 witness at concrete confidences 3/4 vs 1/4 and a tied pair. -/
theorem C2_ensemble_policy_witness :
    ensemble_sentiment "positive" "negative" (3/4) (1/4) = ("positive", 1/2)
    ∧ ensemble_sentiment "positive" "negative" (1/4) (1/4) = ("neutral", 1/2) := by
  constructor
  · have h := (C2_ensemble_policy "positive" "negative" (3/4) (1/4)).1 (by norm_num)
    have e : ((3:ℚ)/4 + 1/4) / 2 = 1/2 := by norm_num
    rw [h, e]
  · exact (C2_ensemble_policy "positive" "negative" (1/4) (1/4)).2.2.2 rfl (by decide)

/-- Claim C3: the TextBlob scorer classifies with strict thresholds at 0.1
(both boundary polarities classify neutral) and reports confidence equal
to the absolute polarity. -/
theorem C3_polarity_thresholds (blob : List Char → Except String (ℚ × ℚ))
    (text : List Char) (p s : ℚ) (h : blob text = .ok (p, s)) :
    (1/10 < p → (textblob_sentiment blob text).sentiment = "positive")
    ∧ (p < -(1/10) → (textblob_sentiment blob text).sentiment = "negative")
    ∧ (-(1/10) ≤ p → p ≤ 1/10 → (textblob_sentiment blob text).sentiment = "neutral")
    ∧ (textblob_sentiment blob text).confidence = |p| := by
  have he : textblob_sentiment blob text
      = ⟨if 1/10 < p then "positive" else if p < -(1/10) then "negative" else "neutral",
         p, s, |p|⟩ := by
    simp only [textblob_sentiment, h, gt_iff_lt]
  refine ⟨?_, ?_, ?_, by rw [he]⟩
  · intro hp
    rw [he]
    show (if 1/10 < p then "positive" else _) = "positive"
    rw [if_pos hp]
  · intro hn
    have h1 : ¬ (1/10 : ℚ) < p := not_lt.mpr (le_of_lt (lt_trans hn (by norm_num)))
    rw [he]
    show (if 1/10 < p then "positive" else _) = "negative"
    rw [if_neg h1, if_pos hn]
  · intro hge hle
    have h1 : ¬ (1/10 : ℚ) < p := not_lt.mpr hle
    have h2 : ¬ p < -(1/10 : ℚ) := not_lt.mpr hge
    rw [he]
    show (if 1/10 < p then "positive" else _) = "neutral"
    rw [if_neg h1, if_neg h2]

/-- Claim C3 witness at the boundary polarity exactly 0.1. -/
theorem C3_polarity_thresholds_witness :
    (textblob_sentiment (fun _ => .ok (1/10, 0)) []).sentiment = "neutral"
    ∧ (textblob_sentiment (fun _ => .ok (1/10, 0)) []).confidence = 1/10 := by
  have h := C3_polarity_thresholds (fun _ => .ok (1/10, 0)) [] (1/10) 0 rfl
  exact ⟨h.2.2.1 (by norm_num) (by norm_num),
    h.2.2.2.trans (abs_of_nonneg (by norm_num))⟩

/-- Claim C6: when a scoring library raises, textblob_sentiment returns
the neutral/0.0/0.0 fallback and vader_sentiment the neutral fallback, so
no scorer exception reaches the batch pipeline. -/
theorem C6_scorer_fallback (blob : List Char → Except String (ℚ × ℚ))
    (vader : List Char → Except String VaderScores) (text : List Char) (e e' : String)
    (hb : blob text = .error e) (hv : vader text = .error e') :
    textblob_sentiment blob text = ⟨"neutral", 0, 0, 0⟩
    ∧ vader_sentiment vader text = ⟨"neutral", 0, 0, 0, 1, 0⟩ := by
  constructor
  · simp [textblob_sentiment, hb]
  · simp [vader_sentiment, hv]

/-- Claim C6 witness with oracles that always raise. -/
theorem C6_scorer_fallback_witness :
    textblob_sentiment (fun _ => .error "boom") [] = ⟨"neutral", 0, 0, 0⟩
    ∧ vader_sentiment (fun _ => .error "boom") [] = ⟨"neutral", 0, 0, 0, 1, 0⟩ :=
  C6_scorer_fallback (fun _ => .error "boom") (fun _ => .error "boom") [] "boom" "boom" rfl rfl

/-- Claim C4: both batch analyzers are exactly a length filter on the
cleaned combined text followed by the one-record-per-item row builder, so
a short item contributes no record, a long one contributes exactly one
record carrying its id, and output order is the input order of survivors. -/
theorem C4_length_filter :
    (∀ (cfg : Config) (blob : List Char → Except String (ℚ × ℚ))
        (vader : List Char → Except String VaderScores) (data : List RawItem),
      analyze_batch_full cfg blob vader data
        = (data.filter fun it =>
            decide (cfg.MIN_TEXT_LENGTH ≤ (clean_text (combined_text it)).length)).map
              (mkFullRecord blob vader))
    ∧ (∀ (blob : List Char → Except String (ℚ × ℚ)) (data : List RawItem),
      analyze_batch blob data
        = (data.filter fun it =>
            decide (10 ≤ (clean_text (combined_text it)).length)).map (mkSimpleRecord blob)) :=
  ⟨analyze_batch_full_eq, analyze_batch_eq⟩

/-- Claim C10 (counterexample): the utils.py trend function does not leave
the caller's collection unchanged: on a five-row frame it assigns the
sentiment_numeric column in place. -/
theorem C10_trend_frame_counterexample :
    (calculate_sentiment_trend_utils demoTrendDf).2 ≠ demoTrendDf := by decide

/-- Claim C10 (amended): the utils_fixed.py trend function is pure (it
returns only a label), while the utils.py variant leaves the collection
unchanged only on its early return (fewer than 5 rows) and otherwise
returns the collection with sentiment_numeric assigned on every record. -/
theorem C10_trend_frame :
    (∀ df : List URec, df.length < 5 → (calculate_sentiment_trend_utils df).2 = df)
    ∧ (∀ df : List URec, 5 ≤ df.length →
        (calculate_sentiment_trend_utils df).2 = df.map addSentimentNumeric) := by
  constructor
  · intro df h
    simp [calculate_sentiment_trend_utils, h]
  · intro df h
    have h' : ¬ df.length < 5 := not_lt.mpr h
    simp only [calculate_sentiment_trend_utils, h', if_false]
    split
    · rfl
    · rfl

/-- Claim C10 witness: the empty frame is untouched; the five-row frame
comes back with the assigned column. -/
theorem C10_trend_frame_witness :
    (calculate_sentiment_trend_utils []).2 = ([] : List URec)
    ∧ (calculate_sentiment_trend_utils demoTrendDf).2 = demoTrendDf.map addSentimentNumeric :=
  ⟨C10_trend_frame.1 [] (by decide), C10_trend_frame.2 demoTrendDf (by decide)⟩

/-! ### Claim C7: invariants of emitted records -/

/-- Label of the TextBlob scorer is always one of the three classes. -/
lemma tb_label_cases (blob : List Char → Except String (ℚ × ℚ)) (t : List Char) :
    (textblob_sentiment blob t).sentiment = "positive"
    ∨ (textblob_sentiment blob t).sentiment = "negative"
    ∨ (textblob_sentiment blob t).sentiment = "neutral" := by
  cases hbt : blob t with
  | error e => simp [textblob_sentiment, hbt]
  | ok v =>
      obtain ⟨p, s⟩ := v
      simp only [textblob_sentiment, hbt]
      split_ifs <;> simp

/-- Label of the VADER scorer is always one of the three classes. -/
lemma vd_label_cases (vader : List Char → Except String VaderScores) (t : List Char) :
    (vader_sentiment vader t).sentiment = "positive"
    ∨ (vader_sentiment vader t).sentiment = "negative"
    ∨ (vader_sentiment vader t).sentiment = "neutral" := by
  cases hvt : vader t with
  | error e => simp [vader_sentiment, hvt]
  | ok sc =>
      simp only [vader_sentiment, hvt]
      split_ifs <;> simp

/-- Confidence of the TextBlob scorer is nonnegative. -/
lemma tb_conf_nonneg (blob : List Char → Except String (ℚ × ℚ)) (t : List Char) :
    0 ≤ (textblob_sentiment blob t).confidence := by
  cases hbt : blob t with
  | error e => simp [textblob_sentiment, hbt]
  | ok v =>
      obtain ⟨p, s⟩ := v
      simp [textblob_sentiment, hbt, abs_nonneg]

/-- Confidence of the TextBlob scorer is at most 1 when the library
polarity stays in the unit interval. -/
lemma tb_conf_le_one (blob : List Char → Except String (ℚ × ℚ)) (t : List Char)
    (hb : ∀ p s, blob t = .ok (p, s) → -1 ≤ p ∧ p ≤ 1) :
    (textblob_sentiment blob t).confidence ≤ 1 := by
  cases hbt : blob t with
  | error e => simp [textblob_sentiment, hbt]
  | ok v =>
      obtain ⟨p, s⟩ := v
      have hp := hb p s hbt
      simp only [textblob_sentiment, hbt]
      exact abs_le.mpr ⟨hp.1, hp.2⟩

/-- Confidence of the VADER scorer is nonnegative. -/
lemma vd_conf_nonneg (vader : List Char → Except String VaderScores) (t : List Char) :
    0 ≤ (vader_sentiment vader t).confidence := by
  cases hvt : vader t with
  | error e => simp [vader_sentiment, hvt]
  | ok sc => simp [vader_sentiment, hvt, abs_nonneg]

/-- Confidence of the VADER scorer is at most 1 when the library compound
stays in the unit interval. -/
lemma vd_conf_le_one (vader : List Char → Except String VaderScores) (t : List Char)
    (hv : ∀ sc, vader t = .ok sc → -1 ≤ sc.compound ∧ sc.compound ≤ 1) :
    (vader_sentiment vader t).confidence ≤ 1 := by
  cases hvt : vader t with
  | error e => simp [vader_sentiment, hvt]
  | ok sc =>
      have hp := hv sc hvt
      simp only [vader_sentiment, hvt]
      exact abs_le.mpr ⟨hp.1, hp.2⟩

/-- Label of the ensemble is one of its two inputs or neutral. -/
lemma ensemble_fst_cases (a b : String) (c d : ℚ) :
    (ensemble_sentiment a b c d).1 = a ∨ (ensemble_sentiment a b c d).1 = b
    ∨ (ensemble_sentiment a b c d).1 = "neutral" := by
  unfold ensemble_sentiment
  split_ifs <;> simp

/-- Confidence of the ensemble stays in the unit interval when both input
confidences do. -/
lemma ensemble_snd_bounds (a b : String) (c d : ℚ)
    (hc0 : 0 ≤ c) (hc1 : c ≤ 1) (hd0 : 0 ≤ d) (hd1 : d ≤ 1) :
    0 ≤ (ensemble_sentiment a b c d).2 ∧ (ensemble_sentiment a b c d).2 ≤ 1 := by
  unfold ensemble_sentiment
  split_ifs <;> exact ⟨by dsimp only; linarith, by dsimp only; linarith⟩

/-- Claim C7: every record emitted by the full batch analyzer, under
scorer outputs bounded in the unit interval, carries one of the three
sentiment labels, a final confidence in the unit interval, and a cleaned
text no shorter than the configured minimum. -/
theorem C7_record_invariants (cfg : Config)
    (blob : List Char → Except String (ℚ × ℚ))
    (vader : List Char → Except String VaderScores) (data : List RawItem)
    (hb : ∀ t p s, blob t = .ok (p, s) → -1 ≤ p ∧ p ≤ 1)
    (hv : ∀ t sc, vader t = .ok sc → -1 ≤ sc.compound ∧ sc.compound ≤ 1) :
    ∀ r ∈ analyze_batch_full cfg blob vader data,
      (r.final_sentiment = "positive" ∨ r.final_sentiment = "negative"
        ∨ r.final_sentiment = "neutral")
      ∧ (0 ≤ r.final_confidence ∧ r.final_confidence ≤ 1)
      ∧ cfg.MIN_TEXT_LENGTH ≤ r.cleaned_text.length := by
  intro r hr
  rw [analyze_batch_full_eq] at hr
  obtain ⟨item, hmem, rfl⟩ := List.mem_map.mp hr
  obtain ⟨-, hkeep⟩ := List.mem_filter.mp hmem
  have hlen : cfg.MIN_TEXT_LENGTH ≤ (clean_text (combined_text item)).length :=
    of_decide_eq_true hkeep
  refine ⟨?_, ?_, hlen⟩
  · have hfs : (mkFullRecord blob vader item).final_sentiment
        = (ensemble_sentiment
            (textblob_sentiment blob (clean_text (combined_text item))).sentiment
            (vader_sentiment vader (clean_text (combined_text item))).sentiment
            (textblob_sentiment blob (clean_text (combined_text item))).confidence
            (vader_sentiment vader (clean_text (combined_text item))).confidence).1 := rfl
    rw [hfs]
    rcases ensemble_fst_cases
        (textblob_sentiment blob (clean_text (combined_text item))).sentiment
        (vader_sentiment vader (clean_text (combined_text item))).sentiment
        (textblob_sentiment blob (clean_text (combined_text item))).confidence
        (vader_sentiment vader (clean_text (combined_text item))).confidence with
      h | h | h
    · rw [h]; exact tb_label_cases blob _
    · rw [h]; exact vd_label_cases vader _
    · rw [h]; right; right; rfl
  · have hfc : (mkFullRecord blob vader item).final_confidence
        = (ensemble_sentiment
            (textblob_sentiment blob (clean_text (combined_text item))).sentiment
            (vader_sentiment vader (clean_text (combined_text item))).sentiment
            (textblob_sentiment blob (clean_text (combined_text item))).confidence
            (vader_sentiment vader (clean_text (combined_text item))).confidence).2 := rfl
    rw [hfc]
    exact ensemble_snd_bounds _ _ _ _
      (tb_conf_nonneg blob _) (tb_conf_le_one blob _ (fun p s hp => hb _ p s hp))
      (vd_conf_nonneg vader _) (vd_conf_le_one vader _ (fun sc hp => hv _ sc hp))



/-- Claim C7 witness on a concrete one-item batch. -/
theorem C7_record_invariants_witness :
    (0 ≤ (mkFullRecord demoBlob demoVader demoItem).final_confidence
      ∧ (mkFullRecord demoBlob demoVader demoItem).final_confidence ≤ 1)
    ∧ 10 ≤ (mkFullRecord demoBlob demoVader demoItem).cleaned_text.length := by
  have h := C7_record_invariants ⟨10⟩ demoBlob demoVader [demoItem]
    (by
      intro t p s hok
      simp only [demoBlob, Except.ok.injEq, Prod.mk.injEq] at hok
      obtain ⟨h1, -⟩ := hok
      subst h1
      norm_num)
    (by
      intro t sc hok
      simp [demoVader] at hok)
  have hlt : ¬ (clean_text (combined_text demoItem)).length < 10 := by decide
  have hm : mkFullRecord demoBlob demoVader demoItem
      ∈ analyze_batch_full ⟨10⟩ demoBlob demoVader [demoItem] := by
    simp only [analyze_batch_full]
    rw [if_neg hlt]
    exact List.mem_cons_self _ _
  exact ⟨(h _ hm).2.1, (h _ hm).2.2⟩

/-! ### Claim C8: top_sources ranking -/

/-- Membership in a stable count insertion. -/
lemma mem_insertByCount (x y : String × ℕ) (l : List (String × ℕ)) :
    y ∈ insertByCount x l ↔ y = x ∨ y ∈ l := by
  induction l with
  | nil => simp [insertByCount]
  | cons z l ih =>
      by_cases h : x.2 < z.2
      · simp only [insertByCount, if_pos h, List.mem_cons, ih]
        tauto
      · simp only [insertByCount, if_neg h, List.mem_cons]

/-- Stable insertion keeps the list ordered by strictly dropping counts
with ties ordered by the priority relation, provided the inserted element
has priority over everything present. -/
lemma insertByCount_pairwise {Q : String × ℕ → String × ℕ → Prop} (x : String × ℕ)
    (m : List (String × ℕ))
    (hm : m.Pairwise fun p q => q.2 < p.2 ∨ (p.2 = q.2 ∧ Q p q))
    (hx : ∀ y ∈ m, Q x y) :
    (insertByCount x m).Pairwise fun p q => q.2 < p.2 ∨ (p.2 = q.2 ∧ Q p q) := by
  induction m with
  | nil => simp [insertByCount]
  | cons z l ih =>
      rw [List.pairwise_cons] at hm
      obtain ⟨hz, hl⟩ := hm
      by_cases h : x.2 < z.2
      · simp only [insertByCount, if_pos h]
        rw [List.pairwise_cons]
        refine ⟨?_, ih hl fun y hy => hx y (List.mem_cons_of_mem _ hy)⟩
        intro y hy
        rcases (mem_insertByCount x y l).mp hy with rfl | hyl
        · exact Or.inl h
        · exact hz y hyl
      · simp only [insertByCount, if_neg h]
        rw [List.pairwise_cons]
        constructor
        · intro y hy
          rcases List.mem_cons.mp hy with rfl | hyl
          · rcases lt_or_eq_of_le (not_lt.mp h) with hlt | heq
            · exact Or.inl hlt
            · exact Or.inr ⟨heq.symm, hx _ (List.mem_cons_self _ _)⟩
          · rcases hz y hyl with h1 | ⟨h2, -⟩
            · exact Or.inl (lt_of_lt_of_le h1 (not_lt.mp h))
            · rcases lt_or_eq_of_le (not_lt.mp h) with hlt | heq
              · exact Or.inl (h2 ▸ hlt)
              · exact Or.inr ⟨heq.symm.trans h2, hx y (List.mem_cons_of_mem _ hyl)⟩
        · exact List.pairwise_cons.mpr ⟨hz, hl⟩

/-- Membership is preserved by the count sort. -/
lemma mem_sortByCountDesc (y : String × ℕ) (l : List (String × ℕ)) :
    y ∈ sortByCountDesc l ↔ y ∈ l := by
  induction l with
  | nil => simp [sortByCountDesc]
  | cons x l ih => simp [sortByCountDesc, mem_insertByCount, ih]

/-- Sorting a priority-ordered count list yields the descending order with
ties resolved by the priority relation. -/
lemma sortByCountDesc_pairwise {Q : String × ℕ → String × ℕ → Prop}
    (l : List (String × ℕ)) (hl : l.Pairwise Q) :
    (sortByCountDesc l).Pairwise fun p q => q.2 < p.2 ∨ (p.2 = q.2 ∧ Q p q) := by
  induction l with
  | nil => simp [sortByCountDesc]
  | cons x l ih =>
      rw [List.pairwise_cons] at hl
      exact insertByCount_pairwise x _ (ih hl.2)
        fun y hy => hl.1 y ((mem_sortByCountDesc y l).mp hy)

/-- Elements produced by the first-seen scan come from the list and were
not in the seen accumulator. -/
lemma mem_firstSeenAux : ∀ (l seen : List String) (a : String),
    a ∈ firstSeenAux seen l → a ∈ l ∧ seen.contains a = false := by
  intro l
  induction l with
  | nil =>
      intro seen a h
      simp [firstSeenAux] at h
  | cons x xs ih =>
      intro seen a h
      by_cases hc : seen.contains x = true
      · rw [firstSeenAux, if_pos hc] at h
        obtain ⟨h1, h2⟩ := ih seen a h
        exact ⟨List.mem_cons_of_mem _ h1, h2⟩
      · rw [firstSeenAux, if_neg hc] at h
        simp only [Bool.not_eq_true] at hc
        rcases List.mem_cons.mp h with rfl | h'
        · exact ⟨List.mem_cons_self _ _, hc⟩
        · obtain ⟨h1, h2⟩ := ih (x :: seen) a h'
          rw [List.contains_cons] at h2
          rcases Bool.or_eq_false_iff.mp h2 with ⟨-, h4⟩
          exact ⟨List.mem_cons_of_mem _ h1, h4⟩

/-- First index of a value distinct from the head. -/
lemma firstIdx_cons_ne (x a : String) (xs : List String) (h : a ≠ x) :
    firstIdx a (x :: xs) = firstIdx a xs + 1 := by
  unfold firstIdx
  rw [List.findIdx_cons]
  have e : (x == a) = false := beq_eq_false_iff_ne.mpr fun he => h he.symm
  simp [e]

/-- First index of the head itself. -/
lemma firstIdx_cons_self (x : String) (xs : List String) : firstIdx x (x :: xs) = 0 := by
  unfold firstIdx
  rw [List.findIdx_cons]
  simp

/-- The first-seen scan lists values in strictly increasing order of their
first occurrence in the scanned list. -/
lemma firstSeenAux_pairwise : ∀ (l seen : List String),
    (firstSeenAux seen l).Pairwise fun a b => firstIdx a l < firstIdx b l := by
  intro l
  induction l with
  | nil =>
      intro seen
      simp [firstSeenAux]
  | cons x xs ih =>
      intro seen
      by_cases hc : seen.contains x = true
      · rw [firstSeenAux, if_pos hc]
        apply List.Pairwise.imp_of_mem ?_ (ih seen)
        intro a b ha hb hab
        have ha' := mem_firstSeenAux xs seen a ha
        have hb' := mem_firstSeenAux xs seen b hb
        have hax : a ≠ x := fun he => by rw [he] at ha'; rw [ha'.2] at hc; cases hc
        have hbx : b ≠ x := fun he => by rw [he] at hb'; rw [hb'.2] at hc; cases hc
        rw [firstIdx_cons_ne x a xs hax, firstIdx_cons_ne x b xs hbx]
        omega
      · rw [firstSeenAux, if_neg hc]
        rw [List.pairwise_cons]
        constructor
        · intro b hb
          have hb' := mem_firstSeenAux xs (x :: seen) b hb
          have hbx : b ≠ x := by
            intro he
            rw [he, List.contains_cons] at hb'
            rcases Bool.or_eq_false_iff.mp hb'.2 with ⟨h3, -⟩
            rw [beq_self_eq_true] at h3
            cases h3
          rw [firstIdx_cons_self, firstIdx_cons_ne x b xs hbx]
          omega
        · apply List.Pairwise.imp_of_mem ?_ (ih (x :: seen))
          intro a b ha hb hab
          have ha' := mem_firstSeenAux xs (x :: seen) a ha
          have hb' := mem_firstSeenAux xs (x :: seen) b hb
          have hax : a ≠ x := by
            intro he
            rw [he, List.contains_cons] at ha'
            rcases Bool.or_eq_false_iff.mp ha'.2 with ⟨h3, -⟩
            rw [beq_self_eq_true] at h3
            cases h3
          have hbx : b ≠ x := by
            intro he
            rw [he, List.contains_cons] at hb'
            rcases Bool.or_eq_false_iff.mp hb'.2 with ⟨h3, -⟩
            rw [beq_self_eq_true] at h3
            cases h3
          rw [firstIdx_cons_ne x a xs hax, firstIdx_cons_ne x b xs hbx]
          omega

/-- Grouped counts are listed in strictly increasing first-occurrence order. -/
lemma sourceCounts_pairwise (l : List String) :
    (sourceCounts l).Pairwise fun p q => firstIdx p.1 l < firstIdx q.1 l := by
  unfold sourceCounts firstSeen
  rw [List.pairwise_map]
  exact firstSeenAux_pairwise l []

/-- Every grouped count entry carries a source of the list and its
occurrence count. -/
lemma mem_sourceCounts (p : String × ℕ) (l : List String) (h : p ∈ sourceCounts l) :
    p.1 ∈ l ∧ p.2 = l.count p.1 := by
  unfold sourceCounts at h
  obtain ⟨a, ha, rfl⟩ := List.mem_map.mp h
  exact ⟨(mem_firstSeenAux l [] a ha).1, rfl⟩

/-- Claim C8: for a nonempty record collection the top_sources list of the
summary has at most 5 entries, is ordered by descending count with
equal-count ties ordered by first appearance of the source in the input
sequence, and each entry carries a source of the input with its true
occurrence count. -/
theorem C8_top_sources (records : List Record) (hne : records ≠ []) (s : Summary)
    (hs : get_summary_stats records = some s) :
    s.top_sources.length ≤ 5
    ∧ s.top_sources.Pairwise (fun p q => q.2 < p.2
        ∨ (p.2 = q.2 ∧ firstIdx p.1 (records.map Record.source)
            < firstIdx q.1 (records.map Record.source)))
    ∧ ∀ p ∈ s.top_sources,
        p.1 ∈ records.map Record.source
        ∧ p.2 = (records.map Record.source).count p.1 := by
  have hemp : records.isEmpty = false := by
    cases records with
    | nil => exact absurd rfl hne
    | cons a l => rfl
  simp only [get_summary_stats, hemp, Bool.false_eq_true, if_false, Option.some.injEq] at hs
  subst hs
  have htop : (buildSummary records).top_sources
      = (value_counts (records.map Record.source)).take 5 := rfl
  refine ⟨?_, ?_, ?_⟩
  · rw [htop]
    exact List.length_take_le 5 _
  · rw [htop]
    apply List.Pairwise.sublist (List.take_sublist _ _)
    unfold value_counts
    exact sortByCountDesc_pairwise _ (sourceCounts_pairwise _)
  · intro p hp
    rw [htop] at hp
    have hp1 : p ∈ value_counts (records.map Record.source) :=
      (List.take_sublist _ _).subset hp
    have hp2 : p ∈ sourceCounts (records.map Record.source) :=
      (mem_sortByCountDesc p _).mp hp1
    exact mem_sourceCounts p _ hp2

/-- Claim C8 witness on a concrete five-record collection with a tie
between the news and blog sources. -/
theorem C8_top_sources_witness :
    (buildSummary demoRecords).top_sources.length ≤ 5
    ∧ (buildSummary demoRecords).top_sources.Pairwise (fun p q => q.2 < p.2
        ∨ (p.2 = q.2 ∧ firstIdx p.1 (demoRecords.map Record.source)
            < firstIdx q.1 (demoRecords.map Record.source)))
    ∧ ∀ p ∈ (buildSummary demoRecords).top_sources,
        p.1 ∈ demoRecords.map Record.source
        ∧ p.2 = (demoRecords.map Record.source).count p.1 :=
  C8_top_sources demoRecords (List.cons_ne_nil _ _) (buildSummary demoRecords) rfl

/-! ### Claim C5: trend classification via the least-squares slope -/

/-- Unfolding of the index abscissas at a successor length. -/
lemma idxList_succ (n : ℕ) : idxList (n + 1) = idxList n ++ [(n : ℚ)] := by
  unfold idxList
  rw [List.range_succ, List.map_append]
  rfl

/-- Length of the index abscissa list. -/
lemma idxList_length (n : ℕ) : (idxList n).length = n := by
  simp [idxList]

/-- List sum as a sum over indices. -/
lemma sum_eq_range_getD (ys : List ℚ) :
    ys.sum = ∑ i in Finset.range ys.length, ys.getD i 0 := by
  induction ys using List.reverseRecOn with
  | nil => simp
  | append_singleton l a ih =>
      rw [List.sum_append, List.length_append, List.sum_cons, List.sum_nil, add_zero,
        List.length_singleton, Finset.sum_range_succ]
      congr 1
      · rw [ih]
        apply Finset.sum_congr rfl
        intro i hi
        rw [List.getD_append _ _ _ _ (List.mem_range.mp hi)]
      · rw [List.getD_append_right _ _ _ _ (le_refl _)]
        simp

/-- Sum of the index abscissas as a range sum. -/
lemma idxList_sum (n : ℕ) : (idxList n).sum = ∑ i in Finset.range n, (i : ℚ) := by
  induction n with
  | zero => simp [idxList]
  | succ n ih =>
      rw [idxList_succ, List.sum_append, ih, Finset.sum_range_succ]
      simp

/-- Sum of squared index abscissas as a range sum. -/
lemma idxList_sq_sum (n : ℕ) :
    ((idxList n).map fun a => a * a).sum = ∑ i in Finset.range n, (i : ℚ) * i := by
  induction n with
  | zero => simp [idxList]
  | succ n ih =>
      rw [idxList_succ, List.map_append, List.sum_append, ih, Finset.sum_range_succ]
      simp

/-- Cross sum of indices and series values as a range sum. -/
lemma zip_mul_sum (ys : List ℚ) :
    (List.zipWith (fun a b => a * b) (idxList ys.length) ys).sum
      = ∑ i in Finset.range ys.length, (i : ℚ) * ys.getD i 0 := by
  induction ys using List.reverseRecOn with
  | nil => simp [idxList]
  | append_singleton l a ih =>
      have hlen : idxList (l ++ [a]).length = idxList l.length ++ [(l.length : ℚ)] := by
        rw [List.length_append, List.length_singleton, idxList_succ]
      rw [hlen, List.zipWith_append _ _ _ _ _ (idxList_length l.length),
        List.sum_append, List.length_append, List.length_singleton]
      simp only [List.zipWith_cons_cons, List.zipWith_nil_right, List.sum_cons, List.sum_nil,
        add_zero]
      rw [Finset.sum_range_succ]
      congr 1
      · rw [ih]
        apply Finset.sum_congr rfl
        intro i hi
        rw [List.getD_append _ _ _ _ (List.mem_range.mp hi)]
      · rw [List.getD_append_right _ _ _ _ (le_refl _)]
        simp

/-- Slope formula of the fit, written over range sums. -/
lemma olsSlope_eq (ys : List ℚ) :
    olsSlope ys
      = ((ys.length : ℚ) * (∑ i in Finset.range ys.length, (i : ℚ) * ys.getD i 0)
          - (∑ i in Finset.range ys.length, (i : ℚ))
            * (∑ i in Finset.range ys.length, ys.getD i 0))
        / ((ys.length : ℚ) * (∑ i in Finset.range ys.length, (i : ℚ) * i)
          - (∑ i in Finset.range ys.length, (i : ℚ))
            * (∑ i in Finset.range ys.length, (i : ℚ))) := by
  simp only [olsSlope, polyfitSlope, idxList_length]
  rw [zip_mul_sum, idxList_sq_sum, idxList_sum, sum_eq_range_getD]

/-- Gauss sum over the rationals. -/
lemma range_cast_sum (n : ℕ) :
    (∑ i in Finset.range n, (i : ℚ)) = n * (n - 1) / 2 := by
  induction n with
  | zero => simp
  | succ n ih =>
      rw [Finset.sum_range_succ, ih]
      push_cast
      ring

/-- Sum of squares over the rationals. -/
lemma range_cast_sq_sum (n : ℕ) :
    (∑ i in Finset.range n, (i : ℚ) * i) = n * (n - 1) * (2 * n - 1) / 6 := by
  induction n with
  | zero => simp
  | succ n ih =>
      rw [Finset.sum_range_succ, ih]
      push_cast
      ring

/-- Denominator of the slope formula is positive from two points on. -/
lemma ols_denom_pos (n : ℕ) (hn : 2 ≤ n) :
    0 < (n : ℚ) * (∑ i in Finset.range n, (i : ℚ) * i)
      - (∑ i in Finset.range n, (i : ℚ)) * (∑ i in Finset.range n, (i : ℚ)) := by
  rw [range_cast_sum, range_cast_sq_sum]
  have h2 : (2 : ℚ) ≤ (n : ℚ) := by exact_mod_cast hn
  have key : (n : ℚ) * ((n : ℚ) * ((n : ℚ) - 1) * (2 * (n : ℚ) - 1) / 6)
      - (n : ℚ) * ((n : ℚ) - 1) / 2 * ((n : ℚ) * ((n : ℚ) - 1) / 2)
      = (n : ℚ) * (n : ℚ) * ((n : ℚ) - 1) * ((n : ℚ) + 1) / 12 := by
    ring
  rw [key]
  have h0 : (0 : ℚ) < (n : ℚ) := by linarith
  have h1 : (0 : ℚ) < (n : ℚ) - 1 := by linarith
  have h3 : (0 : ℚ) < (n : ℚ) + 1 := by linarith
  have := mul_pos (mul_pos (mul_pos h0 h0) h1) h3
  linarith

/-- Completing the square: the error of any line exceeds the error of a
line satisfying the normal equations by a sum of squares. -/
lemma sum_sq_decomp (n : ℕ) (y : ℕ → ℚ) (β α m b : ℚ)
    (hr1 : ∑ i in Finset.range n, (y i - (β * i + α)) = 0)
    (hr2 : ∑ i in Finset.range n, (i : ℚ) * (y i - (β * i + α)) = 0) :
    ∑ i in Finset.range n, (y i - (m * i + b)) ^ 2
      = (∑ i in Finset.range n, (y i - (β * i + α)) ^ 2)
        + ∑ i in Finset.range n, ((β - m) * i + (α - b)) ^ 2 := by
  have expand : ∀ i ∈ Finset.range n,
      (y i - (m * i + b)) ^ 2
        = ((y i - (β * i + α)) ^ 2 + ((β - m) * i + (α - b)) ^ 2)
          + ((2 * (β - m)) * ((i : ℚ) * (y i - (β * i + α)))
            + (2 * (α - b)) * (y i - (β * i + α))) := by
    intro i _
    ring
  rw [Finset.sum_congr rfl expand, Finset.sum_add_distrib, Finset.sum_add_distrib,
    Finset.sum_add_distrib, ← Finset.mul_sum, ← Finset.mul_sum, hr1, hr2]
  ring

/-- Normal equations of the slope and intercept computed by the fit. -/
lemma sse_normal_eqs (ys : List ℚ) (hn : 2 ≤ ys.length) :
    (∑ i in Finset.range ys.length,
        (ys.getD i 0 - (olsSlope ys * i + olsIntercept ys)) = 0)
    ∧ (∑ i in Finset.range ys.length,
        (i : ℚ) * (ys.getD i 0 - (olsSlope ys * i + olsIntercept ys)) = 0) := by
  have hNpos : (0 : ℚ) < (ys.length : ℚ) := by
    have : (2 : ℚ) ≤ (ys.length : ℚ) := by exact_mod_cast hn
    linarith
  have hN0 : (ys.length : ℚ) ≠ 0 := ne_of_gt hNpos
  have hD := ols_denom_pos ys.length hn
  have hα : olsIntercept ys
      = ((∑ i in Finset.range ys.length, ys.getD i 0)
          - olsSlope ys * (∑ i in Finset.range ys.length, (i : ℚ))) / (ys.length : ℚ) := by
    unfold olsIntercept
    rw [sum_eq_range_getD, idxList_sum]
  have hβD : olsSlope ys
      * ((ys.length : ℚ) * (∑ i in Finset.range ys.length, (i : ℚ) * i)
          - (∑ i in Finset.range ys.length, (i : ℚ))
            * (∑ i in Finset.range ys.length, (i : ℚ)))
      = (ys.length : ℚ) * (∑ i in Finset.range ys.length, (i : ℚ) * ys.getD i 0)
          - (∑ i in Finset.range ys.length, (i : ℚ))
            * (∑ i in Finset.range ys.length, ys.getD i 0) := by
    rw [olsSlope_eq]
    exact div_mul_cancel₀ _ (ne_of_gt hD)
  have hαN : olsIntercept ys * (ys.length : ℚ)
      = (∑ i in Finset.range ys.length, ys.getD i 0)
        - olsSlope ys * (∑ i in Finset.range ys.length, (i : ℚ)) := by
    rw [hα]
    exact div_mul_cancel₀ _ hN0
  constructor
  · have e1 : ∑ i in Finset.range ys.length,
        (ys.getD i 0 - (olsSlope ys * i + olsIntercept ys))
        = (∑ i in Finset.range ys.length, ys.getD i 0)
          - olsSlope ys * (∑ i in Finset.range ys.length, (i : ℚ))
          - (ys.length : ℚ) * olsIntercept ys := by
      rw [Finset.sum_sub_distrib, Finset.sum_add_distrib, ← Finset.mul_sum,
        Finset.sum_const, Finset.card_range, nsmul_eq_mul]
      ring
    rw [e1]
    linear_combination (-1 : ℚ) * hαN
  · have e2 : ∑ i in Finset.range ys.length,
        (i : ℚ) * (ys.getD i 0 - (olsSlope ys * i + olsIntercept ys))
        = (∑ i in Finset.range ys.length, (i : ℚ) * ys.getD i 0)
          - olsSlope ys * (∑ i in Finset.range ys.length, (i : ℚ) * i)
          - olsIntercept ys * (∑ i in Finset.range ys.length, (i : ℚ)) := by
      calc ∑ i in Finset.range ys.length,
            (i : ℚ) * (ys.getD i 0 - (olsSlope ys * i + olsIntercept ys))
          = ∑ i in Finset.range ys.length,
            ((i : ℚ) * ys.getD i 0 - olsSlope ys * ((i : ℚ) * i)
              - olsIntercept ys * (i : ℚ)) := by
            apply Finset.sum_congr rfl
            intro i _
            ring
        _ = _ := by
            rw [Finset.sum_sub_distrib, Finset.sum_sub_distrib, ← Finset.mul_sum,
              ← Finset.mul_sum]
    rw [e2]
    refine mul_left_cancel₀ hN0 ?_
    linear_combination (-1 : ℚ) * hβD
      - (∑ i in Finset.range ys.length, (i : ℚ)) * hαN

/-- Slope and intercept produced by the fit minimise the sum of squared
errors. -/
lemma sse_min (ys : List ℚ) (hn : 2 ≤ ys.length) (m b : ℚ) :
    sse (olsSlope ys) (olsIntercept ys) ys ≤ sse m b ys := by
  obtain ⟨h1, h2⟩ := sse_normal_eqs ys hn
  have hd := sum_sq_decomp ys.length (fun i => ys.getD i 0)
    (olsSlope ys) (olsIntercept ys) m b h1 h2
  have hnn : 0 ≤ ∑ i in Finset.range ys.length,
      ((olsSlope ys - m) * i + (olsIntercept ys - b)) ^ 2 :=
    Finset.sum_nonneg fun i _ => sq_nonneg _
  unfold sse
  linarith [hd]

/-- A vanishing sum of squared affine values over at least two abscissas
forces the linear coefficient to vanish. -/
lemma sum_affine_sq_zero (n : ℕ) (u v : ℚ) (hn : 2 ≤ n)
    (h0 : ∑ i in Finset.range n, (u * i + v) ^ 2 = 0) : u = 0 := by
  have hexp : ∑ i in Finset.range n, (u * i + v) ^ 2
      = u ^ 2 * (∑ i in Finset.range n, (i : ℚ) * i)
        + (2 * u * v) * (∑ i in Finset.range n, (i : ℚ)) + n * v ^ 2 := by
    calc ∑ i in Finset.range n, (u * i + v) ^ 2
        = ∑ i in Finset.range n,
            (u ^ 2 * ((i : ℚ) * i) + (2 * u * v) * (i : ℚ) + v ^ 2) := by
          apply Finset.sum_congr rfl
          intro i _
          ring
      _ = _ := by
          rw [Finset.sum_add_distrib, Finset.sum_add_distrib, ← Finset.mul_sum,
            ← Finset.mul_sum, Finset.sum_const, Finset.card_range, nsmul_eq_mul]
  have hD := ols_denom_pos n hn
  have hkey : (n : ℚ) * (u ^ 2 * (∑ i in Finset.range n, (i : ℚ) * i)
        + (2 * u * v) * (∑ i in Finset.range n, (i : ℚ)) + n * v ^ 2)
      = u ^ 2 * ((n : ℚ) * (∑ i in Finset.range n, (i : ℚ) * i)
          - (∑ i in Finset.range n, (i : ℚ)) * (∑ i in Finset.range n, (i : ℚ)))
        + (u * (∑ i in Finset.range n, (i : ℚ)) + v * n) ^ 2 := by
    ring
  have h1 : u ^ 2 * ((n : ℚ) * (∑ i in Finset.range n, (i : ℚ) * i)
        - (∑ i in Finset.range n, (i : ℚ)) * (∑ i in Finset.range n, (i : ℚ)))
      + (u * (∑ i in Finset.range n, (i : ℚ)) + v * n) ^ 2 = 0 := by
    rw [← hkey, ← hexp, h0, mul_zero]
  have h2 : u ^ 2 * ((n : ℚ) * (∑ i in Finset.range n, (i : ℚ) * i)
        - (∑ i in Finset.range n, (i : ℚ)) * (∑ i in Finset.range n, (i : ℚ))) ≤ 0 := by
    nlinarith [sq_nonneg (u * (∑ i in Finset.range n, (i : ℚ)) + v * (n : ℚ))]
  have h3 : 0 ≤ u ^ 2 * ((n : ℚ) * (∑ i in Finset.range n, (i : ℚ) * i)
        - (∑ i in Finset.range n, (i : ℚ)) * (∑ i in Finset.range n, (i : ℚ))) :=
    mul_nonneg (sq_nonneg u) (le_of_lt hD)
  rcases mul_eq_zero.mp (le_antisymm h2 h3) with h | h
  · exact sq_eq_zero_iff.mp h
  · exact absurd h (ne_of_gt hD)

/-- Any minimiser of the sum of squared errors has the slope of the fit. -/
lemma olsSlope_unique (ys : List ℚ) (hn : 2 ≤ ys.length) (m b : ℚ)
    (hmb : ∀ m' b' : ℚ, sse m b ys ≤ sse m' b' ys) : m = olsSlope ys := by
  obtain ⟨h1, h2⟩ := sse_normal_eqs ys hn
  have hd := sum_sq_decomp ys.length (fun i => ys.getD i 0)
    (olsSlope ys) (olsIntercept ys) m b h1 h2
  have hle := hmb (olsSlope ys) (olsIntercept ys)
  have hnn : 0 ≤ ∑ i in Finset.range ys.length,
      ((olsSlope ys - m) * i + (olsIntercept ys - b)) ^ 2 :=
    Finset.sum_nonneg fun i _ => sq_nonneg _
  have hsse : sse m b ys = sse (olsSlope ys) (olsIntercept ys) ys
      + ∑ i in Finset.range ys.length,
          ((olsSlope ys - m) * i + (olsIntercept ys - b)) ^ 2 := by
    unfold sse
    exact hd
  have hQ0 : ∑ i in Finset.range ys.length,
      ((olsSlope ys - m) * i + (olsIntercept ys - b)) ^ 2 = 0 := by
    linarith
  have := sum_affine_sq_zero ys.length (olsSlope ys - m) (olsIntercept ys - b) hn hQ0
  linarith

/-- Claim C5: the fixed trend classifier returns insufficient_data below
two records; from two records on it sorts ascending by created_utc, maps
sentiments to 1, 0, -1, and thresholds at 0.01 the slope of the line that
uniquely minimises the squared error against indices 0, 1, 2, .... -/
theorem C5_trend_classifier :
    (∀ df : List URec, df.length < 2 →
      calculate_sentiment_trend df = "insufficient_data")
    ∧ (∀ df : List URec, 2 ≤ df.length →
        (∀ r ∈ df, sentimentNumeric r.final_sentiment ≠ none) →
        (sortByDate df).Sorted dateLe
        ∧ (sortByDate df).Perm df
        ∧ (∀ m b : ℚ,
            sse (olsSlope (trendScores df)) (olsIntercept (trendScores df)) (trendScores df)
              ≤ sse m b (trendScores df))
        ∧ (∀ m b : ℚ,
            (∀ m' b' : ℚ, sse m b (trendScores df) ≤ sse m' b' (trendScores df))
              → m = olsSlope (trendScores df))
        ∧ calculate_sentiment_trend df
            = (if 1/100 < olsSlope (trendScores df) then "improving"
               else if olsSlope (trendScores df) < -(1/100) then "declining"
               else "stable")) := by
  constructor
  · intro df h
    simp [calculate_sentiment_trend, h]
  · intro df h hvalid
    have hlen : (trendScores df).length = df.length := by
      unfold trendScores sortByDate
      rw [List.length_map]
      exact (List.perm_insertionSort dateLe df).length_eq
    have hn2 : 2 ≤ (trendScores df).length := hlen ▸ h
    have hno : ¬ df.length < 2 := not_lt.mpr h
    have hall : ((sortByDate df).map fun r => sentimentNumeric r.final_sentiment).all
        Option.isSome = true := by
      rw [List.all_eq_true]
      intro o ho
      obtain ⟨r, hr, rfl⟩ := List.mem_map.mp ho
      have hrd : r ∈ df := (List.perm_insertionSort dateLe df).subset hr
      exact Option.isSome_iff_ne_none.mpr (hvalid r hrd)
    refine ⟨List.sorted_insertionSort dateLe df, List.perm_insertionSort dateLe df,
      fun m b => sse_min _ hn2 m b, fun m b hm => olsSlope_unique _ hn2 m b hm, ?_⟩
    have hys : ((sortByDate df).map fun r => sentimentNumeric r.final_sentiment).map
        (fun o => o.getD 0) = trendScores df := by
      rw [List.map_map]
      rfl
    simp only [calculate_sentiment_trend]
    rw [if_neg hno, if_pos hall, hys]

/-- Claim C5 witness: the empty collection is insufficient and the
concrete negative-to-positive five-record collection improves. -/
theorem C5_trend_classifier_witness :
    calculate_sentiment_trend [] = "insufficient_data"
    ∧ calculate_sentiment_trend demoTrendRecs = "improving" := by
  constructor
  · exact C5_trend_classifier.1 [] (by decide)
  · have h := (C5_trend_classifier.2 demoTrendRecs (by decide) (by decide)).2.2.2.2
    have hts : trendScores demoTrendRecs = [-1, -1, 0, 1, 1] := by
      norm_num [trendScores, sortByDate, demoTrendRecs, List.insertionSort,
        List.orderedInsert, dateLe, sentimentNumeric]
      decide
    have hr : List.range 5 = [0, 1, 2, 3, 4] := rfl
    have hidx : idxList 5 = [0, 1, 2, 3, 4] := by
      unfold idxList
      rw [hr]
      norm_num [List.map]
    have hslope : olsSlope [-1, -1, 0, 1, 1] = 3/5 := by
      unfold olsSlope
      norm_num [hidx, polyfitSlope, List.zipWith, List.map]
    rw [h, hts, hslope]
    norm_num

/-! ### Claim C9: idempotence of clean_text

The proof establishes that one pass of clean_text leaves a string with no
URL match, no mention/hashtag match, collapsed whitespace and
non-whitespace endpoints, and that each pass is the identity on such
strings. -/

/-- Word characters are never whitespace. -/
lemma word_not_space (c : Char) (h : isWordChar c = true) : isPySpace c = false := by
  cases hsp : isPySpace c with
  | false => rfl
  | true =>
      simp only [isPySpace, Bool.or_eq_true, beq_iff_eq, or_assoc] at hsp
      rcases hsp with rfl | rfl | rfl | rfl | rfl | rfl <;> exact absurd h (by decide)

/-- Elimination form of a URL match at a cons cell. -/
lemma urlStart_true_elim (c : Char) (cs : List Char) (h : urlStart (c :: cs) = true) :
    (c = 'h' ∧ ∃ r rest, cs = 't' :: 't' :: 'p' :: r :: rest ∧ isPySpace r = false)
    ∨ (c = 'w' ∧ ∃ r rest, cs = 'w' :: 'w' :: r :: rest ∧ isPySpace r = false) := by
  simp only [urlStart, Bool.or_eq_true, Bool.and_eq_true, decide_eq_true_eq] at h
  rcases h with ⟨h1, h2⟩ | ⟨h1, h2⟩
  · left
    rw [List.take_succ_cons] at h1
    have hc : c = 'h' := (List.cons.injEq _ _ _ _).mp h1 |>.1
    have h3 : cs.take 3 = ['t', 't', 'p'] := (List.cons.injEq _ _ _ _).mp h1 |>.2
    rw [List.drop_succ_cons] at h2
    refine ⟨hc, ?_⟩
    cases hd : cs.drop 3 with
    | nil => rw [hd] at h2; cases h2
    | cons r rest =>
        rw [hd] at h2
        have hr : isPySpace r = false := by
          cases hsp : isPySpace r with
          | false => rfl
          | true => rw [nonSpaceHead, hsp] at h2; cases h2
        refine ⟨r, rest, ?_, hr⟩
        conv_lhs => rw [← List.take_append_drop 3 cs]
        rw [h3, hd]
        rfl
  · right
    rw [List.take_succ_cons] at h1
    have hc : c = 'w' := (List.cons.injEq _ _ _ _).mp h1 |>.1
    have h3 : cs.take 2 = ['w', 'w'] := (List.cons.injEq _ _ _ _).mp h1 |>.2
    rw [List.drop_succ_cons] at h2
    refine ⟨hc, ?_⟩
    cases hd : cs.drop 2 with
    | nil => rw [hd] at h2; cases h2
    | cons r rest =>
        rw [hd] at h2
        have hr : isPySpace r = false := by
          cases hsp : isPySpace r with
          | false => rfl
          | true => rw [nonSpaceHead, hsp] at h2; cases h2
        refine ⟨r, rest, ?_, hr⟩
        conv_lhs => rw [← List.take_append_drop 2 cs]
        rw [h3, hd]
        rfl

/-- Introduction form of an http match. -/
lemma urlStart_http (r : Char) (rest : List Char) (hr : isPySpace r = false) :
    urlStart ('h' :: 't' :: 't' :: 'p' :: r :: rest) = true := by
  simp [urlStart, nonSpaceHead, hr]

/-- Introduction form of a www match. -/
lemma urlStart_www (r : Char) (rest : List Char) (hr : isPySpace r = false) :
    urlStart ('w' :: 'w' :: 'w' :: r :: rest) = true := by
  simp [urlStart, nonSpaceHead, hr]

/-- A whitespace character starts no URL match. -/
lemma urlStart_space_head (c : Char) (cs : List Char) (h : isPySpace c = true) :
    urlStart (c :: cs) = false := by
  cases hu : urlStart (c :: cs) with
  | false => rfl
  | true =>
      rcases urlStart_true_elim c cs hu with ⟨rfl, -⟩ | ⟨rfl, -⟩ <;>
        exact absurd h (by decide)

/-- Elimination and introduction form of a mention/hashtag match. -/
lemma tagStart_cons_iff (c : Char) (cs : List Char) :
    tagStart (c :: cs) = true
      ↔ (c = '@' ∨ c = '#') ∧ ∃ d rest, cs = d :: rest ∧ isWordChar d = true := by
  cases cs with
  | nil => simp [tagStart]
  | cons d rest =>
      simp only [tagStart, Bool.and_eq_true, Bool.or_eq_true, beq_iff_eq]
      constructor
      · rintro ⟨h1, h2⟩
        exact ⟨h1, d, rest, rfl, h2⟩
      · rintro ⟨h1, d', rest', he, h2⟩
        rcases (List.cons.injEq _ _ _ _).mp he with ⟨rfl, rfl⟩
        exact ⟨h1, h2⟩

/-- A whitespace character starts no mention/hashtag match. -/
lemma tagStart_space_head (c : Char) (cs : List Char) (h : isPySpace c = true) :
    tagStart (c :: cs) = false := by
  cases ht : tagStart (c :: cs) with
  | false => rfl
  | true =>
      rcases ((tagStart_cons_iff c cs).mp ht).1 with rfl | rfl <;>
        exact absurd h (by decide)

/-- Suffix characterisation of NoUrl at a cons cell. -/
lemma NoUrl_cons (c : Char) (cs : List Char) :
    NoUrl (c :: cs) ↔ urlStart (c :: cs) = false ∧ NoUrl cs := by
  constructor
  · intro h
    exact ⟨h _ (List.suffix_refl _), fun t ht => h t (ht.trans (List.suffix_cons c cs))⟩
  · rintro ⟨h1, h2⟩ t ht
    rcases List.suffix_cons_iff.mp ht with rfl | ht'
    · exact h1
    · exact h2 t ht'

/-- Suffix characterisation of NoTag at a cons cell. -/
lemma NoTag_cons (c : Char) (cs : List Char) :
    NoTag (c :: cs) ↔ tagStart (c :: cs) = false ∧ NoTag cs := by
  constructor
  · intro h
    exact ⟨h _ (List.suffix_refl _), fun t ht => h t (ht.trans (List.suffix_cons c cs))⟩
  · rintro ⟨h1, h2⟩ t ht
    rcases List.suffix_cons_iff.mp ht with rfl | ht'
    · exact h1
    · exact h2 t ht'

/-- NoUrl holds of the empty string. -/
lemma NoUrl_nil : NoUrl [] := by
  intro t ht
  rw [List.suffix_nil.mp ht]
  rfl

/-- NoTag holds of the empty string. -/
lemma NoTag_nil : NoTag [] := by
  intro t ht
  rw [List.suffix_nil.mp ht]
  rfl

/-- NoUrl passes to suffixes. -/
lemma NoUrl_suffix {l t : List Char} (h : NoUrl l) (ht : t <:+ l) : NoUrl t :=
  fun s hs => h s (hs.trans ht)

/-- NoTag passes to suffixes. -/
lemma NoTag_suffix {l t : List Char} (h : NoTag l) (ht : t <:+ l) : NoTag t :=
  fun s hs => h s (hs.trans ht)

/-- The URL scan in skipping mode drops the rest of the non-space run. -/
lemma removeUrlsAux_true_eq (cs : List Char) :
    removeUrlsAux true cs = removeUrlsAux false (cs.dropWhile fun c => !isPySpace c) := by
  induction cs with
  | nil => rfl
  | cons c cs ih =>
      by_cases h : isPySpace c = true
      · rw [List.dropWhile_cons_of_neg (by simp [h])]
        simp [removeUrlsAux, h, urlStart_space_head c cs h]
      · rw [List.dropWhile_cons_of_pos (by simp [Bool.not_eq_true] at h; simp [h])]
        simp only [removeUrlsAux, h, if_false]
        exact ih

/-- The tag scan in skipping mode drops the rest of the word run. -/
lemma removeTagsAux_true_eq (cs : List Char) :
    removeTagsAux true cs = removeTagsAux false (cs.dropWhile isWordChar) := by
  induction cs with
  | nil => rfl
  | cons c cs ih =>
      by_cases h : isWordChar c = true
      · rw [List.dropWhile_cons_of_pos h]
        simp only [removeTagsAux, h, if_true]
        exact ih
      · rw [List.dropWhile_cons_of_neg (by simp [h])]
        simp [removeTagsAux, h]

/-- The whitespace scan in absorbing mode drops the rest of the run. -/
lemma collapseAux_true_eq (cs : List Char) :
    collapseAux true cs = collapseAux false (cs.dropWhile isPySpace) := by
  induction cs with
  | nil => rfl
  | cons c cs ih =>
      by_cases h : isPySpace c = true
      · rw [List.dropWhile_cons_of_pos h]
        simp only [collapseAux, h, if_true]
        exact ih
      · rw [List.dropWhile_cons_of_neg (by simp [h])]
        simp [collapseAux, h]

/-- Head of a dropWhile result falsifies the scanned property. -/
lemma dropWhile_head_not (p : Char → Bool) (l : List Char) (d : Char) (ds : List Char)
    (h : l.dropWhile p = d :: ds) : p d = false := by
  induction l with
  | nil => cases h
  | cons c cs ih =>
      by_cases hc : p c = true
      · rw [List.dropWhile_cons_of_pos hc] at h
        exact ih h
      · rw [List.dropWhile_cons_of_neg (by simp [hc])] at h
        rcases (List.cons.injEq _ _ _ _).mp h with ⟨rfl, -⟩
        simp only [Bool.not_eq_true] at hc
        exact hc

/-- A word-free head survives the tag scan: when the input starts with a
non-word character (or is empty), so does the output. -/
lemma removeTags_wordfree : ∀ l : List Char,
    (∀ d ds, l = d :: ds → isWordChar d = false) →
    ∀ d ds, removeTagsAux false l = d :: ds → isWordChar d = false
  | [], _, d, ds, h => by cases h
  | c :: cs, hw, d, ds, h => by
      by_cases ht : tagStart (c :: cs) = true
      · rw [show removeTagsAux false (c :: cs) = removeTagsAux true cs from by
          simp [removeTagsAux, ht], removeTagsAux_true_eq] at h
        exact removeTags_wordfree (cs.dropWhile isWordChar)
          (fun d' ds' hd => dropWhile_head_not _ _ _ _ hd) d ds h
      · rw [show removeTagsAux false (c :: cs) = c :: removeTagsAux false cs from by
          simp [removeTagsAux, ht]] at h
        rcases (List.cons.injEq _ _ _ _).mp h with ⟨rfl, -⟩
        exact hw _ cs rfl
termination_by l => l.length
decreasing_by
  simp only [List.length_cons]
  exact Nat.lt_succ_of_le (List.IsSuffix.length_le (List.dropWhile_suffix _))

/-- Inversion of the URL scan at a non-space output head: the head was the
input head and no match fired there. -/
lemma removeUrls_inv_cons (cs : List Char) (d : Char) (ds : List Char)
    (hd : isPySpace d = false) (h : removeUrlsAux false cs = d :: ds) :
    ∃ cs1, cs = d :: cs1 ∧ urlStart (d :: cs1) = false ∧ removeUrlsAux false cs1 = ds := by
  cases cs with
  | nil => cases h
  | cons e es =>
      by_cases hu : urlStart (e :: es) = true
      · exfalso
        rw [show removeUrlsAux false (e :: es) = removeUrlsAux true es from by
          simp [removeUrlsAux, hu], removeUrlsAux_true_eq] at h
        cases hdw : es.dropWhile (fun c => !isPySpace c) with
        | nil => rw [hdw] at h; cases h
        | cons f fs =>
            have hf : isPySpace f = true := by
              have := dropWhile_head_not _ es f fs hdw
              simpa using this
            rw [hdw, show removeUrlsAux false (f :: fs) = f :: removeUrlsAux false fs from by
              simp [removeUrlsAux, urlStart_space_head f fs hf]] at h
            rcases (List.cons.injEq _ _ _ _).mp h with ⟨rfl, -⟩
            rw [hf] at hd
            cases hd
      · rw [show removeUrlsAux false (e :: es) = e :: removeUrlsAux false es from by
          simp [removeUrlsAux, hu]] at h
        rcases (List.cons.injEq _ _ _ _).mp h with ⟨rfl, hds⟩
        exact ⟨es, rfl, by simpa using hu, hds⟩

/-- Inversion of the tag scan at a word-character output head. -/
lemma removeTags_inv_cons (cs : List Char) (d : Char) (ds : List Char)
    (hd : isWordChar d = true) (h : removeTagsAux false cs = d :: ds) :
    ∃ cs1, cs = d :: cs1 ∧ removeTagsAux false cs1 = ds := by
  cases cs with
  | nil => cases h
  | cons e es =>
      by_cases ht : tagStart (e :: es) = true
      · exfalso
        rw [show removeTagsAux false (e :: es) = removeTagsAux true es from by
          simp [removeTagsAux, ht], removeTagsAux_true_eq] at h
        have := removeTags_wordfree (es.dropWhile isWordChar)
          (fun d' ds' hdw => dropWhile_head_not _ _ _ _ hdw) d ds h
        rw [this] at hd
        cases hd
      · rw [show removeTagsAux false (e :: es) = e :: removeTagsAux false es from by
          simp [removeTagsAux, ht]] at h
        rcases (List.cons.injEq _ _ _ _).mp h with ⟨rfl, hds⟩
        exact ⟨es, rfl, hds⟩

/-- Inversion of the whitespace scan at a non-space output head. -/
lemma collapse_inv_cons (cs : List Char) (d : Char) (ds : List Char)
    (hd : isPySpace d = false) (h : collapseAux false cs = d :: ds) :
    ∃ cs1, cs = d :: cs1 ∧ collapseAux false cs1 = ds := by
  cases cs with
  | nil => cases h
  | cons e es =>
      by_cases hsp : isPySpace e = true
      · exfalso
        rw [show collapseAux false (e :: es) = ' ' :: collapseAux true es from by
          simp [collapseAux, hsp]] at h
        rcases (List.cons.injEq _ _ _ _).mp h with ⟨he, -⟩
        rw [← he] at hd
        exact absurd hd (by decide)
      · rw [show collapseAux false (e :: es) = e :: collapseAux false es from by
          simp [collapseAux, hsp]] at h
        rcases (List.cons.injEq _ _ _ _).mp h with ⟨rfl, hds⟩
        exact ⟨es, rfl, hds⟩

/-- The URL scan creates no URL match after a preserved head. -/
lemma urlStart_cons_removeUrls (c : Char) (cs : List Char)
    (h : urlStart (c :: cs) = false) : urlStart (c :: removeUrlsAux false cs) = false := by
  cases hu : urlStart (c :: removeUrlsAux false cs) with
  | false => rfl
  | true =>
      exfalso
      rcases urlStart_true_elim c _ hu with ⟨rfl, r, rest, hR, hr⟩ | ⟨rfl, r, rest, hR, hr⟩
      · obtain ⟨cs1, rfl, -, h1⟩ := removeUrls_inv_cons cs 't' _ (by decide) hR
        obtain ⟨cs2, rfl, -, h2⟩ := removeUrls_inv_cons cs1 't' _ (by decide) h1
        obtain ⟨cs3, rfl, -, h3⟩ := removeUrls_inv_cons cs2 'p' _ (by decide) h2
        cases cs3 with
        | nil => cases h3
        | cons e es =>
            by_cases hsp : isPySpace e = true
            · rw [show removeUrlsAux false (e :: es) = e :: removeUrlsAux false es from by
                simp [removeUrlsAux, urlStart_space_head e es hsp]] at h3
              rcases (List.cons.injEq _ _ _ _).mp h3 with ⟨rfl, -⟩
              rw [hsp] at hr
              cases hr
            · rw [Bool.not_eq_true] at hsp
              rw [urlStart_http e es hsp] at h
              cases h
      · obtain ⟨cs1, rfl, -, h1⟩ := removeUrls_inv_cons cs 'w' _ (by decide) hR
        obtain ⟨cs2, rfl, -, h2⟩ := removeUrls_inv_cons cs1 'w' _ (by decide) h1
        cases cs2 with
        | nil => cases h2
        | cons e es =>
            by_cases hsp : isPySpace e = true
            · rw [show removeUrlsAux false (e :: es) = e :: removeUrlsAux false es from by
                simp [removeUrlsAux, urlStart_space_head e es hsp]] at h2
              rcases (List.cons.injEq _ _ _ _).mp h2 with ⟨rfl, -⟩
              rw [hsp] at hr
              cases hr
            · rw [Bool.not_eq_true] at hsp
              rw [urlStart_www e es hsp] at h
              cases h

/-- The tag scan creates no URL match after a preserved head. -/
lemma urlStart_cons_removeTags (c : Char) (cs : List Char)
    (h : urlStart (c :: cs) = false) : urlStart (c :: removeTagsAux false cs) = false := by
  cases hu : urlStart (c :: removeTagsAux false cs) with
  | false => rfl
  | true =>
      exfalso
      rcases urlStart_true_elim c _ hu with ⟨rfl, r, rest, hR, hr⟩ | ⟨rfl, r, rest, hR, hr⟩
      · obtain ⟨cs1, rfl, h1⟩ := removeTags_inv_cons cs 't' _ (by decide) hR
        obtain ⟨cs2, rfl, h2⟩ := removeTags_inv_cons cs1 't' _ (by decide) h1
        obtain ⟨cs3, rfl, h3⟩ := removeTags_inv_cons cs2 'p' _ (by decide) h2
        cases cs3 with
        | nil => cases h3
        | cons e es =>
            by_cases hsp : isPySpace e = true
            · rw [show removeTagsAux false (e :: es) = e :: removeTagsAux false es from by
                simp [removeTagsAux, tagStart_space_head e es hsp]] at h3
              rcases (List.cons.injEq _ _ _ _).mp h3 with ⟨rfl, -⟩
              rw [hsp] at hr
              cases hr
            · rw [Bool.not_eq_true] at hsp
              rw [urlStart_http e es hsp] at h
              cases h
      · obtain ⟨cs1, rfl, h1⟩ := removeTags_inv_cons cs 'w' _ (by decide) hR
        obtain ⟨cs2, rfl, h2⟩ := removeTags_inv_cons cs1 'w' _ (by decide) h1
        cases cs2 with
        | nil => cases h2
        | cons e es =>
            by_cases hsp : isPySpace e = true
            · rw [show removeTagsAux false (e :: es) = e :: removeTagsAux false es from by
                simp [removeTagsAux, tagStart_space_head e es hsp]] at h2
              rcases (List.cons.injEq _ _ _ _).mp h2 with ⟨rfl, -⟩
              rw [hsp] at hr
              cases hr
            · rw [Bool.not_eq_true] at hsp
              rw [urlStart_www e es hsp] at h
              cases h

/-- The whitespace scan creates no URL match after a preserved head. -/
lemma urlStart_cons_collapse (c : Char) (cs : List Char)
    (h : urlStart (c :: cs) = false) : urlStart (c :: collapseAux false cs) = false := by
  cases hu : urlStart (c :: collapseAux false cs) with
  | false => rfl
  | true =>
      exfalso
      rcases urlStart_true_elim c _ hu with ⟨rfl, r, rest, hR, hr⟩ | ⟨rfl, r, rest, hR, hr⟩
      · obtain ⟨cs1, rfl, h1⟩ := collapse_inv_cons cs 't' _ (by decide) hR
        obtain ⟨cs2, rfl, h2⟩ := collapse_inv_cons cs1 't' _ (by decide) h1
        obtain ⟨cs3, rfl, h3⟩ := collapse_inv_cons cs2 'p' _ (by decide) h2
        cases cs3 with
        | nil => cases h3
        | cons e es =>
            by_cases hsp : isPySpace e = true
            · rw [show collapseAux false (e :: es) = ' ' :: collapseAux true es from by
                simp [collapseAux, hsp]] at h3
              rcases (List.cons.injEq _ _ _ _).mp h3 with ⟨he, -⟩
              rw [← he] at hr
              exact absurd hr (by decide)
            · rw [Bool.not_eq_true] at hsp
              rw [urlStart_http e es hsp] at h
              cases h
      · obtain ⟨cs1, rfl, h1⟩ := collapse_inv_cons cs 'w' _ (by decide) hR
        obtain ⟨cs2, rfl, h2⟩ := collapse_inv_cons cs1 'w' _ (by decide) h1
        cases cs2 with
        | nil => cases h2
        | cons e es =>
            by_cases hsp : isPySpace e = true
            · rw [show collapseAux false (e :: es) = ' ' :: collapseAux true es from by
                simp [collapseAux, hsp]] at h2
              rcases (List.cons.injEq _ _ _ _).mp h2 with ⟨he, -⟩
              rw [← he] at hr
              exact absurd hr (by decide)
            · rw [Bool.not_eq_true] at hsp
              rw [urlStart_www e es hsp] at h
              cases h

/-- The tag scan creates no tag match after a preserved head. -/
lemma tagStart_cons_removeTags (c : Char) (cs : List Char)
    (h : tagStart (c :: cs) = false) : tagStart (c :: removeTagsAux false cs) = false := by
  cases ht : tagStart (c :: removeTagsAux false cs) with
  | false => rfl
  | true =>
      exfalso
      obtain ⟨hc, d, rest, hR, hw⟩ := (tagStart_cons_iff c _).mp ht
      obtain ⟨cs1, rfl, -⟩ := removeTags_inv_cons cs d _ hw hR
      rw [(tagStart_cons_iff c _).mpr ⟨hc, d, cs1, rfl, hw⟩] at h
      cases h

/-- The whitespace scan creates no tag match after a preserved head. -/
lemma tagStart_cons_collapse (c : Char) (cs : List Char)
    (h : tagStart (c :: cs) = false) : tagStart (c :: collapseAux false cs) = false := by
  cases ht : tagStart (c :: collapseAux false cs) with
  | false => rfl
  | true =>
      exfalso
      obtain ⟨hc, d, rest, hR, hw⟩ := (tagStart_cons_iff c _).mp ht
      obtain ⟨cs1, rfl, -⟩ := collapse_inv_cons cs d _ (word_not_space d hw) hR
      rw [(tagStart_cons_iff c _).mpr ⟨hc, d, cs1, rfl, hw⟩] at h
      cases h

/-- The URL pass leaves no URL match anywhere. -/
lemma noUrl_removeUrls : ∀ l : List Char, NoUrl (removeUrlsAux false l)
  | [] => NoUrl_nil
  | c :: cs => by
      by_cases hu : urlStart (c :: cs) = true
      · rw [show removeUrlsAux false (c :: cs) = removeUrlsAux true cs from by
          simp [removeUrlsAux, hu], removeUrlsAux_true_eq]
        exact noUrl_removeUrls (cs.dropWhile fun c => !isPySpace c)
      · rw [Bool.not_eq_true] at hu
        rw [show removeUrlsAux false (c :: cs) = c :: removeUrlsAux false cs from by
          simp [removeUrlsAux, hu], NoUrl_cons]
        exact ⟨urlStart_cons_removeUrls c cs hu, noUrl_removeUrls cs⟩
termination_by l => l.length
decreasing_by
  · simp only [List.length_cons]
    exact Nat.lt_succ_of_le (List.IsSuffix.length_le (List.dropWhile_suffix _))
  · simp

/-- The tag pass leaves no tag match anywhere. -/
lemma noTag_removeTags : ∀ l : List Char, NoTag (removeTagsAux false l)
  | [] => NoTag_nil
  | c :: cs => by
      by_cases ht : tagStart (c :: cs) = true
      · rw [show removeTagsAux false (c :: cs) = removeTagsAux true cs from by
          simp [removeTagsAux, ht], removeTagsAux_true_eq]
        exact noTag_removeTags (cs.dropWhile isWordChar)
      · rw [Bool.not_eq_true] at ht
        rw [show removeTagsAux false (c :: cs) = c :: removeTagsAux false cs from by
          simp [removeTagsAux, ht], NoTag_cons]
        exact ⟨tagStart_cons_removeTags c cs ht, noTag_removeTags cs⟩
termination_by l => l.length
decreasing_by
  · simp only [List.length_cons]
    exact Nat.lt_succ_of_le (List.IsSuffix.length_le (List.dropWhile_suffix _))
  · simp

/-- The tag pass preserves the absence of URL matches. -/
lemma noUrl_removeTags : ∀ l : List Char, NoUrl l → NoUrl (removeTagsAux false l)
  | [], _ => NoUrl_nil
  | c :: cs, h => by
      obtain ⟨h1, h2⟩ := (NoUrl_cons c cs).mp h
      by_cases ht : tagStart (c :: cs) = true
      · rw [show removeTagsAux false (c :: cs) = removeTagsAux true cs from by
          simp [removeTagsAux, ht], removeTagsAux_true_eq]
        exact noUrl_removeTags (cs.dropWhile isWordChar)
          (NoUrl_suffix h2 (List.dropWhile_suffix _))
      · rw [show removeTagsAux false (c :: cs) = c :: removeTagsAux false cs from by
          simp [removeTagsAux, ht], NoUrl_cons]
        exact ⟨urlStart_cons_removeTags c cs h1, noUrl_removeTags cs h2⟩
termination_by l => l.length
decreasing_by
  · simp only [List.length_cons]
    exact Nat.lt_succ_of_le (List.IsSuffix.length_le (List.dropWhile_suffix _))
  · simp

/-- The whitespace pass preserves the absence of URL matches. -/
lemma noUrl_collapse : ∀ l : List Char, NoUrl l → NoUrl (collapseAux false l)
  | [], _ => NoUrl_nil
  | c :: cs, h => by
      obtain ⟨h1, h2⟩ := (NoUrl_cons c cs).mp h
      by_cases hsp : isPySpace c = true
      · rw [show collapseAux false (c :: cs) = ' ' :: collapseAux true cs from by
          simp [collapseAux, hsp], collapseAux_true_eq, NoUrl_cons]
        refine ⟨urlStart_space_head _ _ (by decide), ?_⟩
        exact noUrl_collapse (cs.dropWhile isPySpace) (NoUrl_suffix h2 (List.dropWhile_suffix _))
      · rw [show collapseAux false (c :: cs) = c :: collapseAux false cs from by
          simp [collapseAux, hsp], NoUrl_cons]
        exact ⟨urlStart_cons_collapse c cs h1, noUrl_collapse cs h2⟩
termination_by l => l.length
decreasing_by
  · simp only [List.length_cons]
    exact Nat.lt_succ_of_le (List.IsSuffix.length_le (List.dropWhile_suffix _))
  · simp

/-- The whitespace pass preserves the absence of tag matches. -/
lemma noTag_collapse : ∀ l : List Char, NoTag l → NoTag (collapseAux false l)
  | [], _ => NoTag_nil
  | c :: cs, h => by
      obtain ⟨h1, h2⟩ := (NoTag_cons c cs).mp h
      by_cases hsp : isPySpace c = true
      · rw [show collapseAux false (c :: cs) = ' ' :: collapseAux true cs from by
          simp [collapseAux, hsp], collapseAux_true_eq, NoTag_cons]
        refine ⟨tagStart_space_head _ _ (by decide), ?_⟩
        exact noTag_collapse (cs.dropWhile isPySpace) (NoTag_suffix h2 (List.dropWhile_suffix _))
      · rw [show collapseAux false (c :: cs) = c :: collapseAux false cs from by
          simp [collapseAux, hsp], NoTag_cons]
        exact ⟨tagStart_cons_collapse c cs h1, noTag_collapse cs h2⟩
termination_by l => l.length
decreasing_by
  · simp only [List.length_cons]
    exact Nat.lt_succ_of_le (List.IsSuffix.length_le (List.dropWhile_suffix _))
  · simp

/-- The whitespace pass produces collapsed whitespace. -/
lemma collapsed_collapse : ∀ l : List Char, Collapsed (collapseAux false l)
  | [] => ⟨by simp [collapseAux], by simp [collapseAux, List.chain'_nil]⟩
  | c :: cs => by
      by_cases hsp : isPySpace c = true
      · rw [show collapseAux false (c :: cs) = ' ' :: collapseAux true cs from by
          simp [collapseAux, hsp], collapseAux_true_eq]
        have IH := collapsed_collapse (cs.dropWhile isPySpace)
        constructor
        · intro x hx hsx
          rcases List.mem_cons.mp hx with rfl | hx'
          · rfl
          · exact IH.1 x hx' hsx
        · rw [List.chain'_cons']
          refine ⟨?_, IH.2⟩
          intro y hy
          cases hdw : cs.dropWhile isPySpace with
          | nil =>
              rw [hdw] at hy
              cases hy
          | cons f fs =>
              have hf : isPySpace f = false := dropWhile_head_not _ _ _ _ hdw
              rw [hdw, show collapseAux false (f :: fs) = f :: collapseAux false fs from by
                simp [collapseAux, hf]] at hy
              rw [List.head?_cons, Option.mem_some_iff] at hy
              rintro ⟨-, hyy⟩
              rw [← hy] at hyy
              rw [hf] at hyy
              cases hyy
      · rw [show collapseAux false (c :: cs) = c :: collapseAux false cs from by
          simp [collapseAux, hsp]]
        rw [Bool.not_eq_true] at hsp
        have IH := collapsed_collapse cs
        constructor
        · intro x hx hsx
          rcases List.mem_cons.mp hx with rfl | hx'
          · rw [hsp] at hsx
            cases hsx
          · exact IH.1 x hx' hsx
        · rw [List.chain'_cons']
          refine ⟨?_, IH.2⟩
          intro y hy
          rintro ⟨hcy, -⟩
          rw [hsp] at hcy
          cases hcy
termination_by l => l.length
decreasing_by
  · simp only [List.length_cons]
    exact Nat.lt_succ_of_le (List.IsSuffix.length_le (List.dropWhile_suffix _))
  · simp

/-- The URL pass is the identity on match-free strings. -/
lemma removeUrls_id : ∀ l : List Char, NoUrl l → removeUrlsAux false l = l
  | [], _ => rfl
  | c :: cs, h => by
      obtain ⟨h1, h2⟩ := (NoUrl_cons c cs).mp h
      rw [show removeUrlsAux false (c :: cs) = c :: removeUrlsAux false cs from by
        simp [removeUrlsAux, h1], removeUrls_id cs h2]

/-- The tag pass is the identity on match-free strings. -/
lemma removeTags_id : ∀ l : List Char, NoTag l → removeTagsAux false l = l
  | [], _ => rfl
  | c :: cs, h => by
      obtain ⟨h1, h2⟩ := (NoTag_cons c cs).mp h
      rw [show removeTagsAux false (c :: cs) = c :: removeTagsAux false cs from by
        simp [removeTagsAux, h1], removeTags_id cs h2]

/-- The whitespace pass is the identity on collapsed strings. -/
lemma collapse_id : ∀ l : List Char, Collapsed l → collapseAux false l = l
  | [], _ => rfl
  | c :: cs, h => by
      by_cases hsp : isPySpace c = true
      · have hc : c = ' ' := h.1 c (List.mem_cons_self _ _) hsp
        rw [show collapseAux false (c :: cs) = ' ' :: collapseAux true cs from by
          simp [collapseAux, hsp]]
        have htail : Collapsed cs :=
          ⟨fun x hx => h.1 x (List.mem_cons_of_mem _ hx), h.2.tail⟩
        have heq : collapseAux true cs = collapseAux false cs := by
          cases cs with
          | nil => rfl
          | cons d es =>
              have hrel := (List.chain'_cons.mp h.2).1
              have hd : isPySpace d = false := by
                cases hdd : isPySpace d with
                | false => rfl
                | true => exact absurd ⟨hsp, hdd⟩ hrel
              simp [collapseAux, hd]
        rw [heq, collapse_id cs htail, hc]
      · rw [show collapseAux false (c :: cs) = c :: collapseAux false cs from by
          simp [collapseAux, hsp]]
        have htail : Collapsed cs :=
          ⟨fun x hx => h.1 x (List.mem_cons_of_mem _ hx), h.2.tail⟩
        rw [collapse_id cs htail]

/-- The end strip produces an initial segment of its argument. -/
lemma stripEnd_isPre (m : List Char) : stripEnd m <+: m := by
  have h1 : (stripEnd m).reverse <:+ m.reverse := by
    unfold stripEnd
    rw [List.reverse_reverse]
    exact List.dropWhile_suffix _
  exact List.reverse_suffix.mp h1

/-- The strip is the identity when both endpoints are non-whitespace. -/
lemma strip_id (l : List Char)
    (hhead : l = [] ∨ ∃ c cs, l = c :: cs ∧ isPySpace c = false)
    (hlast : l = [] ∨ ∃ c cs, l.reverse = c :: cs ∧ isPySpace c = false) :
    stripBoth l = l := by
  rcases hhead with rfl | ⟨c, cs, rfl, hc⟩
  · rfl
  · unfold stripBoth stripEnd
    rw [List.dropWhile_cons_of_neg (by simp [hc])]
    rcases hlast with h0 | ⟨d, ds, hrev, hd⟩
    · cases h0
    · rw [hrev, List.dropWhile_cons_of_neg (by simp [hd]), ← hrev, List.reverse_reverse]

/-- Head of a stripped string is non-whitespace (or the string is empty). -/
lemma stripBoth_head (l : List Char) :
    stripBoth l = [] ∨ ∃ c cs, stripBoth l = c :: cs ∧ isPySpace c = false := by
  cases he : stripBoth l with
  | nil => exact Or.inl rfl
  | cons c cs =>
      right
      refine ⟨c, cs, rfl, ?_⟩
      have hpre : stripBoth l <+: l.dropWhile isPySpace := stripEnd_isPre _
      obtain ⟨t, ht⟩ := hpre
      rw [he] at ht
      exact dropWhile_head_not isPySpace l c (cs ++ t) (by rw [← ht, List.cons_append])

/-- Last character of a stripped string is non-whitespace (or empty). -/
lemma stripBoth_last (l : List Char) :
    stripBoth l = [] ∨ ∃ c cs, (stripBoth l).reverse = c :: cs ∧ isPySpace c = false := by
  have hrev : (stripBoth l).reverse
      = (l.dropWhile isPySpace).reverse.dropWhile isPySpace := by
    unfold stripBoth stripEnd
    rw [List.reverse_reverse]
  cases he : (stripBoth l).reverse with
  | nil => exact Or.inl (by simpa using congrArg List.reverse he)
  | cons c cs =>
      right
      refine ⟨c, cs, rfl, ?_⟩
      rw [hrev] at he
      exact dropWhile_head_not isPySpace _ c cs he

/-- A URL match extends along an appended tail. -/
lemma urlStart_append (s t : List Char) (h : urlStart s = true) :
    urlStart (s ++ t) = true := by
  cases s with
  | nil => cases h
  | cons c cs =>
      rcases urlStart_true_elim c cs h with ⟨rfl, r, rest, rfl, hr⟩ | ⟨rfl, r, rest, rfl, hr⟩
      · simp only [List.cons_append]
        exact urlStart_http r (rest ++ t) hr
      · simp only [List.cons_append]
        exact urlStart_www r (rest ++ t) hr

/-- A tag match extends along an appended tail. -/
lemma tagStart_append (s t : List Char) (h : tagStart s = true) :
    tagStart (s ++ t) = true := by
  cases s with
  | nil => cases h
  | cons c cs =>
      obtain ⟨hc, d, rest, rfl, hw⟩ := (tagStart_cons_iff c cs).mp h
      simp only [List.cons_append]
      exact (tagStart_cons_iff c _).mpr ⟨hc, d, rest ++ t, rfl, hw⟩

/-- NoUrl passes to contiguous substrings. -/
lemma NoUrl_sub {l t : List Char} (h : NoUrl l) (ht : t <:+: l) : NoUrl t := by
  intro s hs
  obtain ⟨pre, post, hpt⟩ := ht
  cases hus : urlStart s with
  | false => rfl
  | true =>
      exfalso
      obtain ⟨u, hu⟩ := hs
      have h2 : s ++ post <:+ l := by
        refine ⟨pre ++ u, ?_⟩
        rw [← hpt, ← hu]
        simp [List.append_assoc]
      have := h (s ++ post) h2
      rw [urlStart_append s post hus] at this
      cases this

/-- NoTag passes to contiguous substrings. -/
lemma NoTag_sub {l t : List Char} (h : NoTag l) (ht : t <:+: l) : NoTag t := by
  intro s hs
  obtain ⟨pre, post, hpt⟩ := ht
  cases hus : tagStart s with
  | false => rfl
  | true =>
      exfalso
      obtain ⟨u, hu⟩ := hs
      have h2 : s ++ post <:+ l := by
        refine ⟨pre ++ u, ?_⟩
        rw [← hpt, ← hu]
        simp [List.append_assoc]
      have := h (s ++ post) h2
      rw [tagStart_append s post hus] at this
      cases this

/-- Collapsed whitespace passes to contiguous substrings. -/
lemma Collapsed_sub {l t : List Char} (h : Collapsed l) (ht : t <:+: l) : Collapsed t :=
  ⟨fun c hc hsc => h.1 c (ht.sublist.subset hc) hsc,  List.Chain'.infix h.2 ht⟩

/-- The stripped string is a contiguous substring. -/
lemma stripBoth_sub (l : List Char) : stripBoth l <:+: l :=
  (stripEnd_isPre _).isInfix.trans (List.dropWhile_suffix _).isInfix

/-- One pass of clean_text yields a string with no URL match, no tag
match, collapsed whitespace and non-whitespace endpoints. -/
theorem clean_text_props (text : List Char) :
    NoUrl (clean_text text) ∧ NoTag (clean_text text) ∧ Collapsed (clean_text text)
    ∧ (clean_text text = [] ∨ ∃ c cs, clean_text text = c :: cs ∧ isPySpace c = false)
    ∧ (clean_text text = []
        ∨ ∃ c cs, (clean_text text).reverse = c :: cs ∧ isPySpace c = false) := by
  unfold clean_text
  by_cases h0 : text = []
  · rw [if_pos h0]
    exact ⟨NoUrl_nil, NoTag_nil, ⟨by simp, List.chain'_nil⟩, Or.inl rfl, Or.inl rfl⟩
  · rw [if_neg h0]
    unfold removeUrls removeTags collapseWs
    have hu2 : NoUrl (removeTagsAux false (removeUrlsAux false text)) :=
      noUrl_removeTags _ (noUrl_removeUrls text)
    have hu3 : NoUrl (collapseAux false (removeTagsAux false (removeUrlsAux false text))) :=
      noUrl_collapse _ hu2
    have ht3 : NoTag (collapseAux false (removeTagsAux false (removeUrlsAux false text))) :=
      noTag_collapse _ (noTag_removeTags _)
    have hc3 : Collapsed (collapseAux false (removeTagsAux false (removeUrlsAux false text))) :=
      collapsed_collapse _
    have hinf := stripBoth_sub (collapseAux false (removeTagsAux false (removeUrlsAux false text)))
    exact ⟨NoUrl_sub hu3 hinf, NoTag_sub ht3 hinf, Collapsed_sub hc3 hinf,
      stripBoth_head _, stripBoth_last _⟩

/-- Claim C9: clean_text is idempotent — applying URL removal,
mention/hashtag removal, whitespace collapsing and trimming to an already
cleaned string leaves it unchanged. -/
theorem C9_clean_text_idempotent :
    ∀ text : List Char, clean_text (clean_text text) = clean_text text := by
  intro text
  obtain ⟨hu, ht, hc, hhead, hlast⟩ := clean_text_props text
  set u := clean_text text with hdef
  by_cases h0 : u = []
  · rw [h0]
    rfl
  · have hstep : clean_text u = stripBoth (collapseWs (removeTags (removeUrls u))) := by
      unfold clean_text
      rw [if_neg h0]
    rw [hstep]
    unfold removeUrls removeTags collapseWs
    rw [removeUrls_id u hu, removeTags_id u ht, collapse_id u hc]
    exact strip_id u hhead hlast
